import Mathlib

/-!
Verification development for `draw.c`.

A shallow embedding of the edge generators and the line rasterizer of
`draw.c`, and theorems about them.

Conventions of the embedding:

* C `int` is `Int`. In `draw_line` every arithmetic result is reduced to 32
  bits, two's complement (`wrap32`), so an overflow wraps around as it does on
  the machine; the loops of `draw_line` are bounded by `2^32` iterations.
  The column counters of the point buffer are exact.
* C `double` is a type parameter `α` carrying the arithmetic the code uses;
  `cos`, `sin` and `M_PI` of `math.h` are parameters.
* The pixel sink `plot(s, c, x, y)` is modelled by its trace: every function
  that plots returns the list of plotted pixels, in call order.
* Memory accesses `m[i][j]` are checked: a read or write outside the allocated
  rows and columns (undefined in C) makes the function return `none`.
-/

namespace Draw

/-! ## The rasterizer -/

/-- The value an `int` holds after an arithmetic result `n`: 32 bits, two's
complement, an overflow wraps around. -/
def wrap32 (n : Int) : Int :=
  (n + 2147483648) % 4294967296 - 2147483648

/-- The bound on the iterations of a `while` loop of `draw_line`: its counter is
an `int` stepped by one towards an `int`, so it takes fewer than `2^32` steps. -/
def loop_fuel : Nat := 4294967296

/-- The result of one of the `while` loops of `draw_line`: the pixels plotted
inside the loop, in order, and the values of `x`, `y`, `d` on exit. -/
structure LoopOut where
  plots : List (Int × Int)
  x : Int
  y : Int
  d : Int
deriving DecidableEq, Repr

/-- The loop of octant 1, `while ( x < x1 )` (draw.c 364-372), for at most
`fuel` iterations. -/
def octant1_while : Nat → Int → Int → Int → Int → Int → Int → LoopOut
  | 0, _, _, _, x, y, d => { plots := [], x := x, y := y, d := d }
  | fuel + 1, x1, A, B, x, y, d =>
    if x < x1 then
      let y' := if d > 0 then wrap32 (y + 1) else y
      let d' := if d > 0 then wrap32 (d + B) else d
      let r := octant1_while fuel x1 A B (wrap32 (x + 1)) y' (wrap32 (d' + A))
      { r with plots := (x, y) :: r.plots }
    else
      { plots := [], x := x, y := y, d := d }

/-- The loop of octant 8, `while ( x < x1 )` (draw.c 380-389), for at most
`fuel` iterations. -/
def octant8_while : Nat → Int → Int → Int → Int → Int → Int → LoopOut
  | 0, _, _, _, x, y, d => { plots := [], x := x, y := y, d := d }
  | fuel + 1, x1, A, B, x, y, d =>
    if x < x1 then
      let y' := if d < 0 then wrap32 (y - 1) else y
      let d' := if d < 0 then wrap32 (d - B) else d
      let r := octant8_while fuel x1 A B (wrap32 (x + 1)) y' (wrap32 (d' + A))
      { r with plots := (x, y) :: r.plots }
    else
      { plots := [], x := x, y := y, d := d }

/-- The loop of octant 2, `while ( y < y1 )` (draw.c 401-409), for at most
`fuel` iterations. -/
def octant2_while : Nat → Int → Int → Int → Int → Int → Int → LoopOut
  | 0, _, _, _, x, y, d => { plots := [], x := x, y := y, d := d }
  | fuel + 1, y1, A, B, x, y, d =>
    if y < y1 then
      let x' := if d < 0 then wrap32 (x + 1) else x
      let d' := if d < 0 then wrap32 (d + A) else d
      let r := octant2_while fuel y1 A B x' (wrap32 (y + 1)) (wrap32 (d' + B))
      { r with plots := (x, y) :: r.plots }
    else
      { plots := [], x := x, y := y, d := d }

/-- The loop of octant 7, `while ( y > y1 )` (draw.c 417-425), for at most
`fuel` iterations. -/
def octant7_while : Nat → Int → Int → Int → Int → Int → Int → LoopOut
  | 0, _, _, _, x, y, d => { plots := [], x := x, y := y, d := d }
  | fuel + 1, y1, A, B, x, y, d =>
    if y > y1 then
      let x' := if d > 0 then wrap32 (x + 1) else x
      let d' := if d > 0 then wrap32 (d + A) else d
      let r := octant7_while fuel y1 A B x' (wrap32 (y - 1)) (wrap32 (d' - B))
      { r with plots := (x, y) :: r.plots }
    else
      { plots := [], x := x, y := y, d := d }

/-- The endpoints after the swap `if (x0 > x1)` (draw.c 343-350):
`((x0, y0), (x1, y1))` as the rest of `draw_line` sees them. -/
def swap_points (x0 y0 x1 y1 : Int) : (Int × Int) × (Int × Int) :=
  if x0 > x1 then ((x1, y1), (x0, y0)) else ((x0, y0), (x1, y1))

/-- The `while` loop that `draw_line` runs (draw.c 358-428, without the
`plot( s, c, x1, y1 )` that follows the loop in each branch). -/
def draw_line_loop (x0 y0 x1 y1 : Int) : LoopOut :=
  let p := swap_points x0 y0 x1 y1
  let x0 := p.1.1
  let y0 := p.1.2
  let x1 := p.2.1
  let y1 := p.2.2
  let x := x0
  let y := y0
  let A := wrap32 (2 * wrap32 (y1 - y0))
  let B := wrap32 (-2 * wrap32 (x1 - x0))
  if wrap32 |wrap32 (x1 - x0)| ≥ wrap32 |wrap32 (y1 - y0)| then
    if A > 0 then
      octant1_while loop_fuel x1 A B x y (wrap32 (A + B.tdiv 2))
    else
      octant8_while loop_fuel x1 A B x y (wrap32 (A - B.tdiv 2))
  else
    if A > 0 then
      octant2_while loop_fuel y1 A B x y (wrap32 (A.tdiv 2 + B))
    else
      octant7_while loop_fuel y1 A B x y (wrap32 (A.tdiv 2 - B))

/-- The trace of `plot` calls of `draw_line` (draw.c 338-429). -/
def draw_line (x0 y0 x1 y1 : Int) : List (Int × Int) :=
  let p := swap_points x0 y0 x1 y1
  let x0 := p.1.1
  let y0 := p.1.2
  let x1 := p.2.1
  let y1 := p.2.2
  let x := x0
  let y := y0
  let A := wrap32 (2 * wrap32 (y1 - y0))
  let B := wrap32 (-2 * wrap32 (x1 - x0))
  if wrap32 |wrap32 (x1 - x0)| ≥ wrap32 |wrap32 (y1 - y0)| then
    if A > 0 then
      (octant1_while loop_fuel x1 A B x y (wrap32 (A + B.tdiv 2))).plots ++ [(x1, y1)]
    else
      (octant8_while loop_fuel x1 A B x y (wrap32 (A - B.tdiv 2))).plots ++ [(x1, y1)]
  else
    if A > 0 then
      (octant2_while loop_fuel y1 A B x y (wrap32 (A.tdiv 2 + B))).plots ++ [(x1, y1)]
    else
      (octant7_while loop_fuel y1 A B x y (wrap32 (A.tdiv 2 - B))).plots ++ [(x1, y1)]

/-! ## The point buffer -/

/-- Modelled from the spec: `struct matrix` of `matrix.h`, which is not among
the sources. The buffer of the spec's data model: `rows` by `cols` allocated
cells and a logical length `lastcol`. A cell holds `none` until it is
written (uninitialized memory). -/
structure matrix (α : Type) where
  m : Int → Int → Option α
  rows : Int
  cols : Int
  lastcol : Int

/-- The read `points->m[i][j]`: `none` outside the allocated cells and
for a cell never written. -/
def matrix.read {α : Type} (M : matrix α) (i j : Int) : Option α :=
  if 0 ≤ i ∧ i < M.rows ∧ 0 ≤ j ∧ j < M.cols then M.m i j else none

/-- The write `points->m[i][j] = v`: `none` outside the allocated cells. -/
def matrix.write {α : Type} (M : matrix α) (i j : Int) (v : α) : Option (matrix α) :=
  if 0 ≤ i ∧ i < M.rows ∧ 0 ≤ j ∧ j < M.cols then
    some { M with m := fun a b => if a = i ∧ b = j then some v else M.m a b }
  else none

/-- Modelled from the spec: `new_matrix` of `matrix.c`, which is not among
the sources; the spec gives `new(rows, cols) -> Buffer`. A fresh buffer of
`rows` by `cols` uninitialized cells and logical length 0. -/
def new_matrix {α : Type} (rows cols : Int) : matrix α :=
  { m := fun _ _ => none, rows := rows, cols := cols, lastcol := 0 }

/-- Modelled from the spec: `grow_matrix` of `matrix.c`, which is not among
the sources; the spec gives `grow(buffer, new_cols)`, a capacity growth
"preserving prior contents, new columns uninitialized". -/
def grow_matrix {α : Type} (M : matrix α) (newcols : Int) : matrix α :=
  { M with m := fun i j => if j < newcols then M.read i j else none, cols := newcols }

/-- The function `add_point` (draw.c 280-290). -/
def add_point {α : Type} [One α] (points : matrix α) (x y z : α) : Option (matrix α) := do
  let points :=
    if points.lastcol = points.cols then grow_matrix points (points.lastcol + 100) else points
  let points ← points.write 0 points.lastcol x
  let points ← points.write 1 points.lastcol y
  let points ← points.write 2 points.lastcol z
  let points ← points.write 3 points.lastcol 1
  some { points with lastcol := points.lastcol + 1 }

/-- The function `add_edge` (draw.c 299-304). -/
def add_edge {α : Type} [One α] (points : matrix α) (x0 y0 z0 x1 y1 z1 : α) :
    Option (matrix α) := do
  let points ← add_point points x0 y0 z0
  add_point points x1 y1 z1

/-! ## The generators -/

/-- The function `add_box` (draw.c 25-47). -/
def add_box {α : Type} [One α] [Add α] [Sub α] (edges : matrix α) (x y z w h d : α) :
    Option (matrix α) := do
  let edges ← add_edge edges x y z (x + w) y z
  let edges ← add_edge edges x y z x (y - h) z
  let edges ← add_edge edges x y z x y (z - d)
  let edges ← add_edge edges (x + w) y z (x + w) (y - h) z
  let edges ← add_edge edges (x + w) y z (x + w) y (z - d)
  let edges ← add_edge edges x (y - h) z x (y - h) (z - d)
  let edges ← add_edge edges x (y - h) z (x + w) (y - h) z
  let edges ← add_edge edges (x + w) (y - h) (z - d) (x + w) (y - h) z
  let edges ← add_edge edges (x + w) (y - h) (z - d) (x + w) y (z - d)
  let edges ← add_edge edges (x + w) (y - h) (z - d) x (y - h) (z - d)
  let edges ← add_edge edges (x + w) y (z - d) x y (z - d)
  add_edge edges x y (z - d) x (y - h) (z - d)

/-- The values of `i` in `for (i = lo; i <= hi; i++)`, in order. -/
def loop_le (lo hi : Int) : List Int :=
  (List.range (hi + 1 - lo).toNat).map (fun (k : Nat) => lo + (k : Int))

/-- The values of `i` in `for (i = lo; i < hi; i++)`, in order. -/
def loop_lt (lo hi : Int) : List Int :=
  (List.range (hi - lo).toNat).map (fun (k : Nat) => lo + (k : Int))

/-- The point that `generate_sphere` computes at `i`, `j` (draw.c 103-110). -/
def sphere_point {α : Type} [Field α] (cos sin : α → α) (pi : α) (cx cy cz r : α)
    (step i j : Int) : α × α × α :=
  let phi := (i : α) / (step : α)
  let theta := (j : α) / (step : α)
  let x := r * cos (pi * theta) + cx
  let y := r * sin (pi * theta) * cos (2 * pi * phi) + cy
  let z := r * sin (pi * theta) * sin (2 * pi * phi) + cz
  (x, y, z)

/-- The function `generate_sphere` (draw.c 96-118); `cos`, `sin` and `pi`
stand for `cos`, `sin` and `M_PI` of `math.h`. -/
def generate_sphere {α : Type} [Field α] (cos sin : α → α) (pi : α) (cx cy cz r : α)
    (step : Int) : Option (matrix α) :=
  let sphere : matrix α := new_matrix (step * step) 4
  (loop_le 1 step).foldlM (fun sphere i =>
    (loop_le 1 step).foldlM (fun sphere j =>
      let p := sphere_point cos sin pi cx cy cz r step i j
      add_point sphere p.1 p.2.1 p.2.2) sphere) sphere

/-- The function `add_sphere` (draw.c 65-82). -/
def add_sphere {α : Type} [Field α] (cos sin : α → α) (pi : α) (edges : matrix α)
    (cx cy cz r : α) (step : Int) : Option (matrix α) := do
  let points ← generate_sphere cos sin pi cx cy cz r step
  (loop_lt 0 (step * step)).foldlM (fun edges i => do
    let x ← points.read 0 i
    let y ← points.read 1 i
    let z ← points.read 2 i
    add_edge edges x y z (x + 1) (y + 1) (z + 1)) edges

/-- The point that `generate_torus` computes at `i`, `j` (draw.c 172-179). -/
def torus_point {α : Type} [Field α] (cos sin : α → α) (pi : α) (cx cy cz r R : α)
    (step i j : Int) : α × α × α :=
  let phi := (i : α) / (step : α)
  let theta := (j : α) / (step : α)
  let x := cos (2 * pi * phi) * (r * cos (2 * pi * theta) + R) + cx
  let y := r * sin (2 * pi * theta) + cy
  let z := -sin (2 * pi * phi) * (r * cos (2 * pi * theta) + R) + cz
  (x, y, z)

/-- The function `generate_torus` (draw.c 166-187). -/
def generate_torus {α : Type} [Field α] (cos sin : α → α) (pi : α) (cx cy cz r R : α)
    (step : Int) : Option (matrix α) :=
  let torus : matrix α := new_matrix (step * step) 4
  (loop_le 1 step).foldlM (fun torus i =>
    (loop_le 1 step).foldlM (fun torus j =>
      let p := torus_point cos sin pi cx cy cz r R step i j
      add_point torus p.1 p.2.1 p.2.2) torus) torus

/-- The function `add_torus` (draw.c 135-151). -/
def add_torus {α : Type} [Field α] (cos sin : α → α) (pi : α) (edges : matrix α)
    (cx cy cz r R : α) (step : Int) : Option (matrix α) := do
  let points ← generate_torus cos sin pi cx cy cz r R step
  (loop_lt 0 (step * step)).foldlM (fun edges i => do
    let x ← points.read 0 i
    let y ← points.read 1 i
    let z ← points.read 2 i
    add_edge edges x y z (x + 1) (y + 1) (z + 1)) edges

/-- The loop of `add_circle` (draw.c 206-214) from the values `is` of `i` on:
the state is the buffer and the variables `x0`, `y0`. -/
def add_circle_for {α : Type} [Field α] (cos sin : α → α) (pi : α) (cx cy cz r : α)
    (step : Int) (is : List Int) (edges : matrix α) (x0 y0 : α) : Option (matrix α) :=
  match is with
  | [] => some edges
  | i :: rest => do
    let t := (i : α) / (step : α)
    let x1 := r * cos (2 * pi * t) + cx
    let y1 := r * sin (2 * pi * t) + cy
    let edges ← add_edge edges x0 y0 cz x1 y1 cz
    add_circle_for cos sin pi cx cy cz r step rest edges x1 y1

/-- The function `add_circle` (draw.c 198-215). -/
def add_circle {α : Type} [Field α] (cos sin : α → α) (pi : α) (edges : matrix α)
    (cx cy cz r : α) (step : Int) : Option (matrix α) :=
  add_circle_for cos sin pi cx cy cz r step (loop_le 1 step) edges (r + cx) cy

/-- The loop of `add_curve` (draw.c 253-263) from the values `is` of `i` on:
the state is the buffer and the variables `x0`, `y0`. -/
def add_curve_for {α : Type} [Field α] (xcoefs ycoefs : matrix α) (step : Int)
    (is : List Int) (edges : matrix α) (x0 y0 : α) : Option (matrix α) :=
  match is with
  | [] => some edges
  | i :: rest => do
    let t := (i : α) / (step : α)
    let x := (← xcoefs.read 0 0) * t * t * t + (← xcoefs.read 1 0) * t * t
      + (← xcoefs.read 2 0) * t + (← xcoefs.read 3 0)
    let y := (← ycoefs.read 0 0) * t * t * t + (← ycoefs.read 1 0) * t * t
      + (← ycoefs.read 2 0) * t + (← ycoefs.read 3 0)
    let edges ← add_edge edges x0 y0 0 x y 0
    add_curve_for xcoefs ycoefs step rest edges x y

/-- The function `add_curve` (draw.c 235-267); `generate_curve_coefs` of
`matrix.c`, which is not among the sources, is a parameter. -/
def add_curve {α : Type} [Field α] (generate_curve_coefs : α → α → α → α → Int → matrix α)
    (edges : matrix α) (x0 y0 x1 y1 x2 y2 x3 y3 : α) (step : Int) (type : Int) :
    Option (matrix α) :=
  let xcoefs := generate_curve_coefs x0 x1 x2 x3 type
  let ycoefs := generate_curve_coefs y0 y1 y2 y3 type
  add_curve_for xcoefs ycoefs step (loop_le 1 step) edges x0 y0

/-! ## The batch draw -/

/-- What `draw_lines` does to the outside: the lines written by `printf` and
the trace of `plot` calls. -/
structure DrawOut where
  printed : List String
  plots : List (Int × Int)
deriving DecidableEq, Repr

/-- The loop of `draw_lines` (draw.c 322-327) from `point` on; `trunc` is the
conversion of a `double` argument to the `int` parameter of `draw_line`. -/
def draw_lines_for {α : Type} (trunc : α → Int) (points : matrix α) (point : Int) :
    Option (List (Int × Int)) :=
  if point < points.lastcol - 1 then do
    let a ← points.read 0 point
    let b ← points.read 1 point
    let c ← points.read 0 (point + 1)
    let d ← points.read 1 (point + 1)
    let rest ← draw_lines_for trunc points (point + 2)
    some (draw_line (trunc a) (trunc b) (trunc c) (trunc d) ++ rest)
  else some []
termination_by (points.lastcol - 1 - point).toNat
decreasing_by omega

/-- The function `draw_lines` (draw.c 314-328). -/
def draw_lines {α : Type} (trunc : α → Int) (points : matrix α) : Option DrawOut :=
  if points.lastcol < 2 then
    some { printed := ["Need at least 2 points to draw a line!\n"], plots := [] }
  else
    (draw_lines_for trunc points 0).map (fun l => { printed := [], plots := l })

/-! ## Vocabulary of the statements -/

/-- The invariant of a point buffer: four rows (x, y, z, w) and
`0 ≤ lastcol ≤ cols`. -/
def matrix.ok {α : Type} (M : matrix α) : Prop :=
  4 ≤ M.rows ∧ 0 ≤ M.lastcol ∧ M.lastcol ≤ M.cols

/-- Column `j` of a buffer, read as a homogeneous point. -/
def matrix.col {α : Type} (M : matrix α) (j : Int) : Option (α × α × α × α) := do
  let x ← M.read 0 j
  let y ← M.read 1 j
  let z ← M.read 2 j
  let w ← M.read 3 j
  some (x, y, z, w)

/-- The column `add_point` writes for the point `p`: `(x, y, z, 1)`. -/
def homog {α : Type} [One α] (p : α × α × α) : α × α × α × α :=
  (p.1, p.2.1, p.2.2, 1)

/-- A sequence of `add_point` calls, one per point of `pts`, in order. -/
def add_points {α : Type} [One α] (M : matrix α) (pts : List (α × α × α)) :
    Option (matrix α) :=
  pts.foldlM (fun M p => add_point M p.1 p.2.1 p.2.2) M

/-- The corner of the box with label `(a, b, c)`:
`(x + a*w, y - b*h, z - c*d)`, with `a`, `b`, `c` in `{0, 1}`. -/
def box_corner {α : Type} [Ring α] (x y z w h d : α) (l : Bool × Bool × Bool) : α × α × α :=
  (x + (if l.1 then 1 else 0) * w, y - (if l.2.1 then 1 else 0) * h,
    z - (if l.2.2 then 1 else 0) * d)

/-- The labels of the endpoints of the 12 `add_edge` calls of `add_box`, in
the order of the calls (draw.c 29-45). -/
def box_edges : List ((Bool × Bool × Bool) × (Bool × Bool × Bool)) :=
  [((false, false, false), (true, false, false)),
   ((false, false, false), (false, true, false)),
   ((false, false, false), (false, false, true)),
   ((true, false, false), (true, true, false)),
   ((true, false, false), (true, false, true)),
   ((false, true, false), (false, true, true)),
   ((false, true, false), (true, true, false)),
   ((true, true, true), (true, true, false)),
   ((true, true, true), (true, false, true)),
   ((true, true, true), (false, true, true)),
   ((true, false, true), (false, false, true)),
   ((false, false, true), (false, true, true))]

/-- The number of coordinates in which two corner labels differ. -/
def label_diff (p q : Bool × Bool × Bool) : Nat :=
  (if p.1 = q.1 then 0 else 1) + (if p.2.1 = q.2.1 then 0 else 1)
    + (if p.2.2 = q.2.2 then 0 else 1)

/-- A buffer of integer points with `n` columns in use: column `j` holds
`(3 * j, j * j, 7, 1)`. -/
def sample_buffer (n : Int) : matrix Int :=
  { m := fun i j => some (if i = 0 then 3 * j else if i = 1 then j * j else if i = 2 then 7 else 1),
    rows := 4, cols := 8, lastcol := n }

/-- The points `generate_sphere` computes, in the order of its loops. -/
def sphere_points {α : Type} [Field α] (cos sin : α → α) (pi : α) (cx cy cz r : α)
    (step : Int) : List (α × α × α) :=
  (loop_le 1 step).flatMap (fun i =>
    (loop_le 1 step).map (fun j => sphere_point cos sin pi cx cy cz r step i j))

/-- The points `generate_torus` computes, in the order of its loops. -/
def torus_points {α : Type} [Field α] (cos sin : α → α) (pi : α) (cx cy cz r R : α)
    (step : Int) : List (α × α × α) :=
  (loop_le 1 step).flatMap (fun i =>
    (loop_le 1 step).map (fun j => torus_point cos sin pi cx cy cz r R step i j))

/-- Each point `(x, y, z)` followed by `(x+1, y+1, z+1)`. -/
def unit_edges {α : Type} [Add α] [One α] (pts : List (α × α × α)) : List (α × α × α) :=
  pts.flatMap (fun p => [p, (p.1 + 1, p.2.1 + 1, p.2.2 + 1)])

/-- The edges of a polyline: each point of `pts` joined to the point before
it, the first one to `start`. -/
def chain_edges {β : Type} (start : β) : List β → List (β × β)
  | [] => []
  | p :: ps => (start, p) :: chain_edges p ps

/-- The points a list of edges puts in a buffer: both endpoints of each edge,
in order. -/
def edge_points {β : Type} (es : List (β × β)) : List β :=
  es.flatMap (fun e => [e.1, e.2])

/-- The point `add_circle` computes at `i` (draw.c 207-209), with `z = cz`. -/
def circle_point {α : Type} [Field α] (cos sin : α → α) (pi : α) (cx cy cz r : α)
    (step i : Int) : α × α × α :=
  (r * cos (2 * pi * ((i : α) / (step : α))) + cx,
    r * sin (2 * pi * ((i : α) / (step : α))) + cy, cz)

/-- The point `add_curve` computes at `i` (draw.c 254-258) from the
coefficients `(xa, xb, xc, xd)` and `(ya, yb, yc, yd)`, with `z = 0`. -/
def curve_point {α : Type} [Field α] (xa xb xc xd ya yb yc yd : α) (step i : Int) :
    α × α × α :=
  (xa * ((i : α) / (step : α)) * ((i : α) / (step : α)) * ((i : α) / (step : α))
      + xb * ((i : α) / (step : α)) * ((i : α) / (step : α))
      + xc * ((i : α) / (step : α)) + xd,
    ya * ((i : α) / (step : α)) * ((i : α) / (step : α)) * ((i : α) / (step : α))
      + yb * ((i : α) / (step : α)) * ((i : α) / (step : α))
      + yc * ((i : α) / (step : α)) + yd,
    0)

/-- The buffer `M` is a coefficient column `(a, b, c, d)`: what `add_curve`
reads from the result of `generate_curve_coefs` (draw.c 255-258). -/
def matrix.holds_coefs {α : Type} (M : matrix α) (a b c d : α) : Prop :=
  M.read 0 0 = some a ∧ M.read 1 0 = some b ∧ M.read 2 0 = some c ∧ M.read 3 0 = some d

/-- Modelled from the spec: `generate_curve_coefs` of `matrix.c`, which is not
among the sources, for the Bezier family: the 4 by 1 column of the cubic
coefficients `a = -p0 + 3 p1 - 3 p2 + p3`, `b = 3 p0 - 6 p1 + 3 p2`,
`c = -3 p0 + 3 p1`, `d = p0`. The family selector is not inspected. -/
def bezier_curve_coefs {α : Type} [Field α] (p0 p1 p2 p3 : α) (_type : Int) : matrix α :=
  { m := fun i j =>
      if j = 0 then
        if i = 0 then some (-p0 + 3 * p1 - 3 * p2 + p3)
        else if i = 1 then some (3 * p0 - 6 * p1 + 3 * p2)
        else if i = 2 then some (-3 * p0 + 3 * p1)
        else if i = 3 then some p0
        else none
      else none,
    rows := 4, cols := 1, lastcol := 1 }

/-- The ideal minor offset `k * minor / major` of a line rounded to nearest,
an exact half rounded down: `ceil((2*k*minor - major) / (2*major))`. -/
def ideal_minor (k major minor : Int) : Int :=
  ⌈((2 * k * minor - major : Int) : ℚ) / ((2 * major : Int) : ℚ)⌉

/-- The reference rasterizer in the spec's words, for `x0 ≤ x1`: with
`dx = x1 - x0`, `dy = y1 - y0`, `s = sign(dy)`, if `dx ≥ |dy|` pixel `k`
(`k = 0..dx`) is `(x0 + k, y0 + s * ceil((2*k*|dy| - dx) / (2*dx)))`, else pixel
`k` (`k = 0..|dy|`) is `(x0 + ceil((2*k*dx - |dy|) / (2*|dy|)), y0 + s*k)`. -/
def bresenham_norm (x0 y0 x1 y1 : Int) : List (Int × Int) :=
  let dx := x1 - x0
  let dy := y1 - y0
  let s := Int.sign dy
  if dx ≥ |dy| then
    (List.range (dx.toNat + 1)).map
      (fun (k : Nat) => (x0 + (k : Int), y0 + s * ideal_minor k dx |dy|))
  else
    (List.range (|dy|.toNat + 1)).map
      (fun (k : Nat) => (x0 + ideal_minor k |dy| dx, y0 + s * (k : Int)))

/-- The reference rasterizer in the spec's words: `bresenham_norm` after the
swap that makes `x0 ≤ x1`. -/
def bresenham_ref (x0 y0 x1 y1 : Int) : List (Int × Int) :=
  if x0 ≤ x1 then bresenham_norm x0 y0 x1 y1 else bresenham_norm x1 y1 x0 y0

/-- A sequence of `add_edge` calls, one per edge of `es`, in order. -/
def add_edges {α : Type} [One α] (M : matrix α) (es : List ((α × α × α) × (α × α × α))) :
    Option (matrix α) :=
  es.foldlM (fun M e => add_edge M e.1.1 e.1.2.1 e.1.2.2 e.2.1 e.2.2.1 e.2.2.2) M

/-- One `draw_line` call per edge of `es`, in order, on the `(x, y)` of its
endpoints converted by `trunc`: the trace. -/
def draw_edges {α : Type} (trunc : α → Int) (es : List ((α × α × α) × (α × α × α))) :
    List (Int × Int) :=
  es.flatMap (fun e => draw_line (trunc e.1.1) (trunc e.1.2.1) (trunc e.2.1) (trunc e.2.2.1))

/-- A call of one of the functions of `draw.c` that append to the edge buffer,
with its arguments. -/
inductive Shape (α : Type) where
  | edge (x0 y0 z0 x1 y1 z1 : α)
  | box (x y z w h d : α)
  | sphere (cx cy cz r : α) (step : Int)
  | torus (cx cy cz r R : α) (step : Int)
  | circle (cx cy cz r : α) (step : Int)
  | curve (x0 y0 x1 y1 x2 y2 x3 y3 : α) (step type : Int)

/-- The call a `Shape` stands for, on the edge buffer `edges`. -/
def add_shape {α : Type} [Field α] (cos sin : α → α) (pi : α)
    (generate_curve_coefs : α → α → α → α → Int → matrix α) (edges : matrix α) :
    Shape α → Option (matrix α)
  | .edge x0 y0 z0 x1 y1 z1 => add_edge edges x0 y0 z0 x1 y1 z1
  | .box x y z w h d => add_box edges x y z w h d
  | .sphere cx cy cz r step => add_sphere cos sin pi edges cx cy cz r step
  | .torus cx cy cz r R step => add_torus cos sin pi edges cx cy cz r R step
  | .circle cx cy cz r step => add_circle cos sin pi edges cx cy cz r step
  | .curve x0 y0 x1 y1 x2 y2 x3 y3 step type =>
    add_curve generate_curve_coefs edges x0 y0 x1 y1 x2 y2 x3 y3 step type

/-- A mix of calls, made in order on the edge buffer `edges`. -/
def add_shapes {α : Type} [Field α] (cos sin : α → α) (pi : α)
    (generate_curve_coefs : α → α → α → α → Int → matrix α) (edges : matrix α)
    (shapes : List (Shape α)) : Option (matrix α) :=
  shapes.foldlM (add_shape cos sin pi generate_curve_coefs) edges

/-- The coefficient column held by `M`, if its four cells are readable. -/
def matrix.coefs {α : Type} (M : matrix α) : Option (α × α × α × α) := do
  let a ← M.read 0 0
  let b ← M.read 1 0
  let c ← M.read 2 0
  let d ← M.read 3 0
  some (a, b, c, d)

/-- The edges a call appends, as pairs of endpoints in the order of its
`add_edge` calls. -/
def shape_edges {α : Type} [Field α] (cos sin : α → α) (pi : α)
    (generate_curve_coefs : α → α → α → α → Int → matrix α) :
    Shape α → List ((α × α × α) × (α × α × α))
  | .edge x0 y0 z0 x1 y1 z1 => [((x0, y0, z0), (x1, y1, z1))]
  | .box x y z w h d =>
    box_edges.map (fun e => (box_corner x y z w h d e.1, box_corner x y z w h d e.2))
  | .sphere cx cy cz r step =>
    (sphere_points cos sin pi cx cy cz r step).map
      (fun p => (p, (p.1 + 1, p.2.1 + 1, p.2.2 + 1)))
  | .torus cx cy cz r R step =>
    (torus_points cos sin pi cx cy cz r R step).map
      (fun p => (p, (p.1 + 1, p.2.1 + 1, p.2.2 + 1)))
  | .circle cx cy cz r step =>
    chain_edges (r + cx, cy, cz) ((loop_le 1 step).map (circle_point cos sin pi cx cy cz r step))
  | .curve x0 y0 x1 y1 x2 y2 x3 y3 step type =>
    match (generate_curve_coefs x0 x1 x2 x3 type).coefs,
      (generate_curve_coefs y0 y1 y2 y3 type).coefs with
    | some cx, some cy =>
      chain_edges (x0, y0, 0) ((loop_le 1 step).map
        (curve_point cx.1 cx.2.1 cx.2.2.1 cx.2.2.2 cy.1 cy.2.1 cy.2.2.1 cy.2.2.2 step))
    | _, _ => []

/-- The conversion of a rational coordinate to `int`: truncation toward zero. -/
def trunc_rat (q : ℚ) : Int :=
  if 0 ≤ q then ⌊q⌋ else ⌈q⌉

/-- The value `n` is an `int`: `-2^31 ≤ n < 2^31`. -/
def is_int (n : Int) : Prop :=
  -2147483648 ≤ n ∧ n < 2147483648

/-- The endpoints are `int`s and both differences are below `2^30` in absolute
value, so that `2 * dx`, `2 * dy` and the error term of `draw_line` fit an
`int`. -/
def line_fits (x0 y0 x1 y1 : Int) : Prop :=
  is_int x0 ∧ is_int y0 ∧ is_int x1 ∧ is_int y1 ∧
    |x1 - x0| < 1073741824 ∧ |y1 - y0| < 1073741824

/-- A call for which the buffer model gives a result: the step of `add_sphere`
and `add_torus` is 0 or at least 2. -/
def Shape.step_ok {α : Type} : Shape α → Prop
  | .sphere _ _ _ _ step => step = 0 ∨ 2 ≤ step
  | .torus _ _ _ _ _ step => step = 0 ∨ 2 ≤ step
  | _ => True

/-! ## The loops of `draw_line` -/

theorem wrap32_of_int (n : Int) (h1 : -2147483648 ≤ n) (h2 : n < 2147483648) :
    wrap32 n = n := by
  unfold wrap32
  omega

theorem wrap32_zero : wrap32 0 = 0 := by decide

theorem octant1_while_exit (fuel : Nat) (x1 A B x y d : Int) (h : ¬ x < x1) :
    octant1_while fuel x1 A B x y d = { plots := [], x := x, y := y, d := d } := by
  cases fuel <;> simp [octant1_while, h]

theorem octant8_while_exit (fuel : Nat) (x1 A B x y d : Int) (h : ¬ x < x1) :
    octant8_while fuel x1 A B x y d = { plots := [], x := x, y := y, d := d } := by
  cases fuel <;> simp [octant8_while, h]

theorem octant2_while_exit (fuel : Nat) (y1 A B x y d : Int) (h : ¬ y < y1) :
    octant2_while fuel y1 A B x y d = { plots := [], x := x, y := y, d := d } := by
  cases fuel <;> simp [octant2_while, h]

theorem octant7_while_exit (fuel : Nat) (y1 A B x y d : Int) (h : ¬ y > y1) :
    octant7_while fuel y1 A B x y d = { plots := [], x := x, y := y, d := d } := by
  cases fuel <;> simp [octant7_while, h]

/-- The trace of `draw_line` is the trace of its loop followed by the plot of
the second endpoint (after the swap). -/
theorem draw_line_eq_loop (x0 y0 x1 y1 : Int) :
    draw_line x0 y0 x1 y1 =
      (draw_line_loop x0 y0 x1 y1).plots ++ [(swap_points x0 y0 x1 y1).2] := by
  unfold draw_line draw_line_loop
  simp only
  split_ifs <;> rfl

/-- With distinct `x` coordinates the two orders of the endpoints give the
same call after the swap, so the same trace. -/
theorem draw_line_swap_of_ne (x0 y0 x1 y1 : Int) (h : x0 ≠ x1) :
    draw_line x0 y0 x1 y1 = draw_line x1 y1 x0 y0 := by
  have e : swap_points x0 y0 x1 y1 = swap_points x1 y1 x0 y0 := by
    unfold swap_points
    rcases lt_or_gt_of_ne h with h1 | h1
    · simp [h1, not_lt.2 (le_of_lt h1)]
    · simp [h1, not_lt.2 (le_of_lt h1)]
  unfold draw_line
  rw [e]

theorem draw_line_loop_swap_of_ne (x0 y0 x1 y1 : Int) (h : x0 ≠ x1) :
    draw_line_loop x0 y0 x1 y1 = draw_line_loop x1 y1 x0 y0 := by
  have e : swap_points x0 y0 x1 y1 = swap_points x1 y1 x0 y0 := by
    unfold swap_points
    rcases lt_or_gt_of_ne h with h1 | h1
    · simp [h1, not_lt.2 (le_of_lt h1)]
    · simp [h1, not_lt.2 (le_of_lt h1)]
  unfold draw_line_loop
  rw [e]

theorem draw_line_loop_same (a b : Int) :
    draw_line_loop a b a b = { plots := [], x := a, y := b, d := 0 } := by
  unfold draw_line_loop swap_points
  simp only [gt_iff_lt, lt_self_iff_false, if_false, sub_self, wrap32_zero, mul_zero, abs_zero,
    ge_iff_le, le_refl, if_true, Int.zero_tdiv, sub_zero]
  rw [octant8_while_exit _ _ _ _ _ _ _ (lt_irrefl a)]

/-- C4: the degenerate call `draw_line(x,y,x,y)` runs no iteration of the loop
(it exits with `x`, `y` untouched and nothing plotted) and plots exactly one
pixel, `(x,y)`; so for `(5,5)`. -/
theorem draw_line_degenerate (x y : Int) :
    draw_line_loop x y x y = { plots := [], x := x, y := y, d := 0 } ∧
    draw_line x y x y = [(x, y)] ∧ draw_line 5 5 5 5 = [(5, 5)] := by
  have key2 : ∀ a b : Int, draw_line a b a b = [(a, b)] := by
    intro a b
    rw [draw_line_eq_loop, draw_line_loop_same]
    simp [swap_points]
  exact ⟨draw_line_loop_same x y, key2 x y, key2 5 5⟩

/-- The fuel suffices for the loop of octant 1 on `int`s: it exits with its
condition `x < x1` false. -/
theorem octant1_while_exits (x1 A B : Int) (hx1 : is_int x1) : ∀ (fuel : Nat) (x y d : Int),
    is_int x → x1 - x ≤ fuel → ¬ ((octant1_while fuel x1 A B x y d).x < x1) := by
  unfold is_int at hx1
  intro fuel
  induction fuel with
  | zero =>
    intro x y d _ hf
    simp only [octant1_while]
    push_cast at hf
    omega
  | succ n ih =>
    intro x y d hx hf
    unfold is_int at hx
    by_cases h : x < x1
    · have hw : wrap32 (x + 1) = x + 1 := wrap32_of_int _ (by omega) (by omega)
      simp only [octant1_while, if_pos h, hw]
      exact ih (x + 1) _ _ (by unfold is_int; omega) (by push_cast at hf; omega)
    · simp only [octant1_while, if_neg h]
      exact h

/-- The fuel suffices for the loop of octant 8 on `int`s: it exits with its
condition `x < x1` false. -/
theorem octant8_while_exits (x1 A B : Int) (hx1 : is_int x1) : ∀ (fuel : Nat) (x y d : Int),
    is_int x → x1 - x ≤ fuel → ¬ ((octant8_while fuel x1 A B x y d).x < x1) := by
  unfold is_int at hx1
  intro fuel
  induction fuel with
  | zero =>
    intro x y d _ hf
    simp only [octant8_while]
    push_cast at hf
    omega
  | succ n ih =>
    intro x y d hx hf
    unfold is_int at hx
    by_cases h : x < x1
    · have hw : wrap32 (x + 1) = x + 1 := wrap32_of_int _ (by omega) (by omega)
      simp only [octant8_while, if_pos h, hw]
      exact ih (x + 1) _ _ (by unfold is_int; omega) (by push_cast at hf; omega)
    · simp only [octant8_while, if_neg h]
      exact h

/-- The fuel suffices for the loop of octant 2 on `int`s: it exits with its
condition `y < y1` false. -/
theorem octant2_while_exits (y1 A B : Int) (hy1 : is_int y1) : ∀ (fuel : Nat) (x y d : Int),
    is_int y → y1 - y ≤ fuel → ¬ ((octant2_while fuel y1 A B x y d).y < y1) := by
  unfold is_int at hy1
  intro fuel
  induction fuel with
  | zero =>
    intro x y d _ hf
    simp only [octant2_while]
    push_cast at hf
    omega
  | succ n ih =>
    intro x y d hy hf
    unfold is_int at hy
    by_cases h : y < y1
    · have hw : wrap32 (y + 1) = y + 1 := wrap32_of_int _ (by omega) (by omega)
      simp only [octant2_while, if_pos h, hw]
      exact ih _ (y + 1) _ (by unfold is_int; omega) (by push_cast at hf; omega)
    · simp only [octant2_while, if_neg h]
      exact h

/-- The fuel suffices for the loop of octant 7 on `int`s: it exits with its
condition `y > y1` false. -/
theorem octant7_while_exits (y1 A B : Int) (hy1 : is_int y1) : ∀ (fuel : Nat) (x y d : Int),
    is_int y → y - y1 ≤ fuel → ¬ ((octant7_while fuel y1 A B x y d).y > y1) := by
  unfold is_int at hy1
  intro fuel
  induction fuel with
  | zero =>
    intro x y d _ hf
    simp only [octant7_while]
    push_cast at hf
    omega
  | succ n ih =>
    intro x y d hy hf
    unfold is_int at hy
    by_cases h : y > y1
    · have hw : wrap32 (y - 1) = y - 1 := wrap32_of_int _ (by omega) (by omega)
      simp only [octant7_while, if_pos h, hw]
      exact ih _ (y - 1) _ (by unfold is_int; omega) (by push_cast at hf; omega)
    · simp only [octant7_while, if_neg h]
      exact h

/-- The bound `loop_fuel` is never reached on `int` endpoints: the loop that
`draw_line` runs exits with its own condition false, `x < x1` in octants 1 and
8, `y < y1` in octant 2, `y > y1` in octant 7. -/
theorem draw_line_loop_exits (x0 y0 x1 y1 : Int) (hx0 : is_int x0) (hy0 : is_int y0)
    (hx1 : is_int x1) (hy1 : is_int y1) :
    if wrap32 |wrap32 ((swap_points x0 y0 x1 y1).2.1 - (swap_points x0 y0 x1 y1).1.1)| ≥
        wrap32 |wrap32 ((swap_points x0 y0 x1 y1).2.2 - (swap_points x0 y0 x1 y1).1.2)| then
      ¬ ((draw_line_loop x0 y0 x1 y1).x < (swap_points x0 y0 x1 y1).2.1)
    else if wrap32 (2 * wrap32 ((swap_points x0 y0 x1 y1).2.2 -
        (swap_points x0 y0 x1 y1).1.2)) > 0 then
      ¬ ((draw_line_loop x0 y0 x1 y1).y < (swap_points x0 y0 x1 y1).2.2)
    else
      ¬ ((draw_line_loop x0 y0 x1 y1).y > (swap_points x0 y0 x1 y1).2.2) := by
  have hsw : is_int (swap_points x0 y0 x1 y1).1.1 ∧ is_int (swap_points x0 y0 x1 y1).1.2 ∧
      is_int (swap_points x0 y0 x1 y1).2.1 ∧ is_int (swap_points x0 y0 x1 y1).2.2 := by
    unfold swap_points
    split_ifs
    · exact ⟨hx1, hy1, hx0, hy0⟩
    · exact ⟨hx0, hy0, hx1, hy1⟩
  obtain ⟨h1, h2, h3, h4⟩ := hsw
  have f1 : (swap_points x0 y0 x1 y1).2.1 - (swap_points x0 y0 x1 y1).1.1 ≤
      (loop_fuel : Int) := by
    unfold is_int at h1 h3
    unfold loop_fuel
    push_cast
    omega
  have f2 : (swap_points x0 y0 x1 y1).2.2 - (swap_points x0 y0 x1 y1).1.2 ≤
      (loop_fuel : Int) := by
    unfold is_int at h2 h4
    unfold loop_fuel
    push_cast
    omega
  have f3 : (swap_points x0 y0 x1 y1).1.2 - (swap_points x0 y0 x1 y1).2.2 ≤
      (loop_fuel : Int) := by
    unfold is_int at h2 h4
    unfold loop_fuel
    push_cast
    omega
  unfold draw_line_loop
  simp only
  split_ifs
  · exact octant1_while_exits _ _ _ h3 _ _ _ _ h1 f1
  · exact octant8_while_exits _ _ _ h3 _ _ _ _ h1 f1
  · exact octant2_while_exits _ _ _ h4 _ _ _ _ h2 f2
  · exact octant7_while_exits _ _ _ h4 _ _ _ _ h2 f3

/-! ## The point buffer: reads, writes, appends -/

theorem matrix.write_eq_some {α : Type} (M : matrix α) (i j : Int) (v : α)
    (h : 0 ≤ i ∧ i < M.rows ∧ 0 ≤ j ∧ j < M.cols) :
    M.write i j v =
      some { M with m := fun a b => if a = i ∧ b = j then some v else M.m a b } := by
  unfold matrix.write
  rw [if_pos h]

theorem matrix.write_eq_none {α : Type} (M : matrix α) (i j : Int) (v : α)
    (h : ¬ (0 ≤ i ∧ i < M.rows ∧ 0 ≤ j ∧ j < M.cols)) : M.write i j v = none := by
  unfold matrix.write
  rw [if_neg h]

/-- The buffer `add_point` writes into: grown by 100 columns when full. -/
theorem grow_read {α : Type} (M : matrix α) (n : Int) (i j : Int) (hj : j < M.cols)
    (hn : M.cols ≤ n) : (grow_matrix M n).read i j = M.read i j := by
  unfold grow_matrix matrix.read
  simp only
  by_cases h : 0 ≤ i ∧ i < M.rows ∧ 0 ≤ j ∧ j < M.cols
  · have h' : 0 ≤ i ∧ i < M.rows ∧ 0 ≤ j ∧ j < n := ⟨h.1, h.2.1, h.2.2.1, by omega⟩
    have h'' : j < n := by omega
    simp [h, h', h'']
  · by_cases h' : 0 ≤ i ∧ i < M.rows ∧ 0 ≤ j ∧ j < n
    · have h'' : j < n := h'.2.2.2
      simp [h, h', h'']
    · simp [h, h']

/-- One `add_point` on a buffer satisfying the invariant: it succeeds, writes
`(x, y, z, 1)` at the old logical length, advances the length by one, and
leaves every earlier column as it was. -/
theorem add_point_spec {α : Type} [One α] (M : matrix α) (x y z : α) (hM : M.ok) :
    ∃ M', add_point M x y z = some M' ∧ M'.ok ∧ M'.rows = M.rows ∧
      M'.lastcol = M.lastcol + 1 ∧ M'.col M.lastcol = some (x, y, z, 1) ∧
      (∀ i j, j < M.lastcol → M'.read i j = M.read i j) ∧
      M'.cols = (if M.lastcol = M.cols then M.lastcol + 100 else M.cols) := by
  obtain ⟨hr, h0, hc⟩ := hM
  -- the buffer after the optional growth
  obtain ⟨G, hG, hGr, hGl, hGc, hGread, hGcols⟩ : ∃ G : matrix α,
      (if M.lastcol = M.cols then grow_matrix M (M.lastcol + 100) else M) = G ∧
      G.rows = M.rows ∧ G.lastcol = M.lastcol ∧ M.lastcol < G.cols ∧
      (∀ i j, j < M.lastcol → G.read i j = M.read i j) ∧
      G.cols = (if M.lastcol = M.cols then M.lastcol + 100 else M.cols) := by
    by_cases hfull : M.lastcol = M.cols
    · refine ⟨grow_matrix M (M.lastcol + 100), by simp [hfull], rfl, rfl, ?_, ?_, ?_⟩
      · show M.lastcol < M.lastcol + 100
        omega
      · intro i j hj
        exact grow_read M _ i j (by omega) (by omega)
      · rw [if_pos hfull]
        rfl
    · refine ⟨M, by simp [hfull], rfl, rfl, by omega, fun _ _ _ => rfl, by rw [if_neg hfull]⟩
  have hr0 : 0 ≤ (0 : Int) ∧ (0 : Int) < G.rows ∧ 0 ≤ G.lastcol ∧ G.lastcol < G.cols :=
    ⟨le_refl _, by omega, by omega, by omega⟩
  have hr1 : 0 ≤ (1 : Int) ∧ (1 : Int) < G.rows ∧ 0 ≤ G.lastcol ∧ G.lastcol < G.cols :=
    ⟨by omega, by omega, by omega, by omega⟩
  have hr2 : 0 ≤ (2 : Int) ∧ (2 : Int) < G.rows ∧ 0 ≤ G.lastcol ∧ G.lastcol < G.cols :=
    ⟨by omega, by omega, by omega, by omega⟩
  have hr3 : 0 ≤ (3 : Int) ∧ (3 : Int) < G.rows ∧ 0 ≤ G.lastcol ∧ G.lastcol < G.cols :=
    ⟨by omega, by omega, by omega, by omega⟩
  refine ⟨{ m := fun a b => if a = 3 ∧ b = G.lastcol then some 1 else
              if a = 2 ∧ b = G.lastcol then some z else
              if a = 1 ∧ b = G.lastcol then some y else
              if a = 0 ∧ b = G.lastcol then some x else G.m a b,
            rows := G.rows, cols := G.cols, lastcol := G.lastcol + 1 }, ?_, ?_, ?_, ?_, ?_, ?_, hGcols⟩
  · unfold add_point
    rw [hG]
    simp only [matrix.write, hr0, hr1, hr2, hr3, and_self, if_true, Option.bind_eq_bind,
      Option.some_bind]
  · exact ⟨by show 4 ≤ G.rows; omega, by show 0 ≤ G.lastcol + 1; omega,
      by show G.lastcol + 1 ≤ G.cols; omega⟩
  · exact hGr
  · show G.lastcol + 1 = M.lastcol + 1
    omega
  · have c0 : 0 ≤ (0 : Int) ∧ (0 : Int) < G.rows ∧ 0 ≤ M.lastcol ∧ M.lastcol < G.cols :=
      ⟨le_refl _, by omega, by omega, by omega⟩
    have c1 : 0 ≤ (1 : Int) ∧ (1 : Int) < G.rows ∧ 0 ≤ M.lastcol ∧ M.lastcol < G.cols :=
      ⟨by omega, by omega, by omega, by omega⟩
    have c2 : 0 ≤ (2 : Int) ∧ (2 : Int) < G.rows ∧ 0 ≤ M.lastcol ∧ M.lastcol < G.cols :=
      ⟨by omega, by omega, by omega, by omega⟩
    have c3 : 0 ≤ (3 : Int) ∧ (3 : Int) < G.rows ∧ 0 ≤ M.lastcol ∧ M.lastcol < G.cols :=
      ⟨by omega, by omega, by omega, by omega⟩
    simp [matrix.col, matrix.read, c0, c1, c2, c3, hGl]
  · intro i j hj
    rw [← hGread i j hj]
    have hne : j ≠ G.lastcol := by omega
    simp [matrix.read, hne]

theorem matrix.col_congr {α : Type} (M N : matrix α) (j : Int)
    (h : ∀ i, N.read i j = M.read i j) : N.col j = M.col j := by
  unfold matrix.col
  simp only [h]

theorem add_points_nil {α : Type} [One α] (M : matrix α) : add_points M [] = some M := rfl

theorem add_points_cons {α : Type} [One α] (M : matrix α) (p : α × α × α)
    (ps : List (α × α × α)) :
    add_points M (p :: ps) = (add_point M p.1 p.2.1 p.2.2).bind (fun M1 => add_points M1 ps) := by
  simp [add_points, List.foldlM_cons]

theorem add_points_append {α : Type} [One α] (M : matrix α) (ps qs : List (α × α × α)) :
    add_points M (ps ++ qs) = (add_points M ps).bind (fun M1 => add_points M1 qs) := by
  simp [add_points, List.foldlM_append]

/-- A sequence of `add_point` calls on a buffer satisfying the invariant: all
succeed, the points land in order from the old logical length on, each with
`w = 1`, and the earlier columns are kept. -/
theorem add_points_spec {α : Type} [One α] (pts : List (α × α × α)) :
    ∀ M : matrix α, M.ok →
    ∃ M', add_points M pts = some M' ∧ M'.ok ∧ M'.rows = M.rows ∧
      M'.lastcol = M.lastcol + pts.length ∧
      (∀ (k : Nat) (p : α × α × α), pts[k]? = some p →
        M'.col (M.lastcol + k) = some (homog p)) ∧
      (∀ i j, j < M.lastcol → M'.read i j = M.read i j) ∧
      (M.lastcol + pts.length ≤ M.cols → M'.cols = M.cols) := by
  induction pts with
  | nil =>
    intro M hM
    exact ⟨M, rfl, hM, rfl, by simp, by simp, fun _ _ _ => rfl, fun _ => rfl⟩
  | cons p ps ih =>
    intro M hM
    obtain ⟨M1, h1, hok1, hr1, hl1, hc1, hf1, hcols1⟩ := add_point_spec M p.1 p.2.1 p.2.2 hM
    obtain ⟨M2, h2, hok2, hr2, hl2, hc2, hf2, hcols2⟩ := ih M1 hok1
    refine ⟨M2, ?_, hok2, by rw [hr2, hr1], ?_, ?_, ?_, ?_⟩
    · rw [add_points_cons, h1]
      exact h2
    · rw [hl2, hl1, List.length_cons]
      push_cast
      omega
    · intro k q hk
      cases k with
      | zero =>
        simp only [List.getElem?_cons_zero, Option.some.injEq] at hk
        subst hk
        simp only [Nat.cast_zero, add_zero]
        rw [matrix.col_congr M1 M2 M.lastcol (fun i => hf2 i _ (by omega)), hc1]
        rfl
      | succ k =>
        simp only [List.getElem?_cons_succ] at hk
        have := hc2 k q hk
        rw [hl1] at this
        rw [← this]
        congr 1
        push_cast
        omega
    · intro i j hj
      rw [hf2 i j (by omega), hf1 i j hj]
    · intro hle
      rw [List.length_cons] at hle
      push_cast at hle
      have hnf : ¬ M.lastcol = M.cols := by omega
      rw [if_neg hnf] at hcols1
      rw [hcols2 (by omega), hcols1]

theorem add_edge_eq_add_points {α : Type} [One α] (M : matrix α) (x0 y0 z0 x1 y1 z1 : α) :
    add_edge M x0 y0 z0 x1 y1 z1 = add_points M [(x0, y0, z0), (x1, y1, z1)] := by
  simp [add_edge, add_points, List.foldlM_cons]

/-! ## The batch draw -/

/-- The loop of `draw_lines` from the segment `k0` on, when `r` segments
remain: it reads the four coordinates of each remaining pair of columns and
draws the segment, in order. -/
theorem draw_lines_for_eq {α : Type} (trunc : α → Int) (M : matrix α) (X Y : Int → α)
    (hrep : ∀ j, 0 ≤ j → j < 2 * (M.lastcol / 2) →
      M.read 0 j = some (X j) ∧ M.read 1 j = some (Y j)) :
    ∀ (r k0 : Nat), k0 + r = (M.lastcol / 2).toNat →
    draw_lines_for trunc M (2 * (k0 : Int)) =
      some ((List.range' k0 r).flatMap (fun (k : Nat) =>
        draw_line (trunc (X (2 * (k : Int)))) (trunc (Y (2 * (k : Int))))
          (trunc (X (2 * (k : Int) + 1))) (trunc (Y (2 * (k : Int) + 1))))) := by
  intro r
  induction r with
  | zero =>
    intro k0 hk
    have hc : ¬ (2 * (k0 : Int) < M.lastcol - 1) := by omega
    rw [draw_lines_for, if_neg hc]
    rfl
  | succ r ih =>
    intro k0 hk
    have hc : 2 * (k0 : Int) < M.lastcol - 1 := by omega
    obtain ⟨ha, hb⟩ := hrep (2 * (k0 : Int)) (by omega) (by omega)
    obtain ⟨hc', hd⟩ := hrep (2 * (k0 : Int) + 1) (by omega) (by omega)
    have hnext : 2 * (k0 : Int) + 2 = 2 * ((k0 + 1 : Nat) : Int) := by
      push_cast
      ring
    rw [draw_lines_for, if_pos hc, ha, hb, hc', hd, hnext, ih (k0 + 1) (by omega)]
    simp [List.range'_succ, List.flatMap]

/-- C5: on a buffer of logical length `n ≥ 2`, `draw_lines` prints nothing and
makes exactly `floor(n/2)` calls of `draw_line`, the `k`-th on the `(x, y)` of
columns `2k` and `2k+1`, in increasing `k`; its trace is the concatenation of
theirs. Only the columns below `2 * floor(n/2)` have to be readable: for odd
`n` the last column is not read. -/
theorem draw_lines_pairs {α : Type} (trunc : α → Int) (M : matrix α) (X Y : Int → α)
    (hn : 2 ≤ M.lastcol)
    (hrep : ∀ j, 0 ≤ j → j < 2 * (M.lastcol / 2) →
      M.read 0 j = some (X j) ∧ M.read 1 j = some (Y j)) :
    draw_lines trunc M =
      some { printed := [],
             plots := (List.range (M.lastcol / 2).toNat).flatMap (fun (k : Nat) =>
               draw_line (trunc (X (2 * (k : Int)))) (trunc (Y (2 * (k : Int))))
                 (trunc (X (2 * (k : Int) + 1))) (trunc (Y (2 * (k : Int) + 1)))) } := by
  have hc : ¬ M.lastcol < 2 := by omega
  have h := draw_lines_for_eq trunc M X Y hrep (M.lastcol / 2).toNat 0 (by omega)
  simp only [Nat.cast_zero, mul_zero] at h
  unfold draw_lines
  rw [if_neg hc, h, List.range_eq_range']
  rfl

/-- A buffer of 5 points: `draw_lines` draws the segments of points 0-1 and
2-3 and drops point 4. -/
theorem draw_lines_pairs_witness :
    draw_lines id (sample_buffer 5) =
      some { printed := [], plots := draw_line 0 0 3 1 ++ draw_line 6 4 9 9 } := by
  have h := draw_lines_pairs id (sample_buffer 5) (fun j => 3 * j) (fun j => j * j)
    (by decide) (by
      intro j h0 h1
      have h1' : j < 4 := h1
      have hr : j < 8 := by omega
      simp [sample_buffer, matrix.read, h0, hr])
  rw [h]
  have h2 : ((sample_buffer 5).lastcol / 2).toNat = 2 := by decide
  rw [h2]
  simp [List.flatMap, List.range_succ]

/-- C6: on a buffer of logical length below 2, `draw_lines` prints the
need-at-least-2-points message and makes no `plot` call. -/
theorem draw_lines_too_short {α : Type} (trunc : α → Int) (M : matrix α)
    (h : M.lastcol < 2) :
    draw_lines trunc M =
      some { printed := ["Need at least 2 points to draw a line!\n"], plots := [] } := by
  unfold draw_lines
  rw [if_pos h]

/-- A buffer of exactly 1 point: the message and no plot. -/
theorem draw_lines_too_short_witness :
    (sample_buffer 1).lastcol = 1 ∧
    draw_lines id (sample_buffer 1) =
      some { printed := ["Need at least 2 points to draw a line!\n"], plots := [] } :=
  ⟨rfl, draw_lines_too_short id (sample_buffer 1) (by decide)⟩

/-! ## The box -/

/-- The 24 points `add_box` appends are the corners named by `box_edges`. -/
theorem add_box_eq_add_points {α : Type} [Ring α] (edges : matrix α) (x y z w h d : α) :
    add_box edges x y z w h d =
      add_points edges (box_edges.flatMap (fun e =>
        [box_corner x y z w h d e.1, box_corner x y z w h d e.2])) := by
  simp [add_box, add_edge, add_points, box_edges, box_corner, List.flatMap, List.foldlM_cons,
    Option.bind_assoc]

/-- C7: `add_box` appends exactly 24 points forming 12 edges; the endpoints of
the `i`-th edge are the corners `(x + a*w, y - b*h, z - c*d)` with the labels
`(a, b, c)` of `box_edges`; as unordered pairs the 12 edges are pairwise
distinct, each joins two corners differing in exactly one label coordinate, and
each of the 8 corners is an endpoint of exactly 3 edges. -/
theorem add_box_edges {α : Type} [Ring α] (edges : matrix α) (x y z w h d : α)
    (hok : edges.ok) :
    ∃ M', add_box edges x y z w h d = some M' ∧ M'.lastcol = edges.lastcol + 24 ∧
      (∀ (i : Nat) (e : (Bool × Bool × Bool) × (Bool × Bool × Bool)), box_edges[i]? = some e →
        M'.col (edges.lastcol + 2 * (i : Int)) = some (homog (box_corner x y z w h d e.1)) ∧
        M'.col (edges.lastcol + 2 * (i : Int) + 1) =
          some (homog (box_corner x y z w h d e.2))) ∧
      (∀ i j, j < edges.lastcol → M'.read i j = edges.read i j) ∧
      box_edges.length = 12 ∧
      box_edges.Pairwise (fun e f => e ≠ f ∧ e ≠ (f.2, f.1)) ∧
      (∀ e ∈ box_edges, label_diff e.1 e.2 = 1) ∧
      (∀ c : Bool × Bool × Bool,
        (box_edges.filter (fun e => e.1 = c ∨ e.2 = c)).length = 3) := by
  obtain ⟨M', h1, _, _, hl, hcol, hframe, _⟩ :=
    add_points_spec (box_edges.flatMap (fun e =>
      [box_corner x y z w h d e.1, box_corner x y z w h d e.2])) edges hok
  refine ⟨M', ?_, ?_, ?_, hframe, rfl, by decide, by decide, by decide⟩
  · rw [add_box_eq_add_points]
    exact h1
  · rw [hl]
    simp [box_edges, List.flatMap]
  · intro i e hi
    have hlt : i < 12 := by
      have := (List.getElem?_eq_some.1 hi).1
      simpa [box_edges] using this
    have h0 := hcol (2 * i)
    have h1' := hcol (2 * i + 1)
    push_cast at h0 h1'
    rw [← add_assoc] at h1'
    constructor
    · apply h0
      interval_cases i <;> simp [box_edges, List.flatMap] at hi ⊢ <;> subst hi <;> rfl
    · apply h1'
      interval_cases i <;> simp [box_edges, List.flatMap] at hi ⊢ <;> subst hi <;> rfl

/-- The box with corner `(0,0,0)` and `w = h = d = 1`: 24 points, among them
the corners `(0,0,0)`, `(1,0,0)`, `(0,-1,0)`, `(0,0,-1)`, `(1,-1,-1)`. -/
theorem add_box_edges_witness :
    ∃ M', add_box (new_matrix 4 0 : matrix Int) 0 0 0 1 1 1 = some M' ∧ M'.lastcol = 24 ∧
      M'.col 0 = some (0, 0, 0, 1) ∧ M'.col 1 = some (1, 0, 0, 1) ∧
      M'.col 3 = some (0, -1, 0, 1) ∧ M'.col 5 = some (0, 0, -1, 1) ∧
      M'.col 14 = some (1, -1, -1, 1) := by
  have hok : (new_matrix 4 0 : matrix Int).ok := by
    simp [matrix.ok, new_matrix]
  obtain ⟨M', h1, h2, h3, _⟩ := add_box_edges (new_matrix 4 0 : matrix Int) 0 0 0 1 1 1 hok
  refine ⟨M', h1, by simpa [new_matrix] using h2, ?_, ?_, ?_, ?_, ?_⟩
  · simpa [new_matrix, box_corner, homog] using (h3 0 _ rfl).1
  · simpa [new_matrix, box_corner, homog] using (h3 0 _ rfl).2
  · simpa [new_matrix, box_corner, homog] using (h3 1 _ rfl).2
  · simpa [new_matrix, box_corner, homog] using (h3 2 _ rfl).2
  · simpa [new_matrix, box_corner, homog] using (h3 7 _ rfl).1

/-! ## Appending to a fresh buffer -/

/-- The `k`-th of a sequence of `add_point` calls on a fresh buffer of capacity
`c`: it finds the logical length `k`, writes `(x, y, z, 1)` there, advances the
length by one and keeps every earlier cell; it grows the buffer exactly when
the length has reached the capacity. -/
theorem add_points_step {α : Type} [One α] (c : Int) (hc : 0 ≤ c) (pts : List (α × α × α))
    (k : Nat) (p : α × α × α) (hk : pts[k]? = some p) :
    ∃ Mk Mk1 : matrix α, add_points (new_matrix 4 c) (pts.take k) = some Mk ∧
      add_point Mk p.1 p.2.1 p.2.2 = some Mk1 ∧
      add_points (new_matrix 4 c) (pts.take (k + 1)) = some Mk1 ∧
      Mk.lastcol = k ∧ Mk1.lastcol = k + 1 ∧ Mk1.col k = some (homog p) ∧
      (∀ i j, j < (k : Int) → Mk1.read i j = Mk.read i j) ∧
      ((k : Int) ≤ c → Mk.cols = c) ∧
      Mk1.cols = (if Mk.lastcol = Mk.cols then Mk.lastcol + 100 else Mk.cols) := by
  have hok : (new_matrix 4 c : matrix α).ok := ⟨le_refl _, le_refl _, hc⟩
  have hlt : k < pts.length := (List.getElem?_eq_some.1 hk).1
  obtain ⟨Mk, h1, hokk, _, hl, _, _, hcols⟩ := add_points_spec (pts.take k) (new_matrix 4 c) hok
  have hlen : (pts.take k).length = k := by
    rw [List.length_take]
    omega
  have hl' : Mk.lastcol = k := by
    rw [hl, hlen]
    show (0 : Int) + k = k
    omega
  obtain ⟨Mk1, h2, _, _, hl1, hc1, hf1, hcols1⟩ := add_point_spec Mk p.1 p.2.1 p.2.2 hokk
  refine ⟨Mk, Mk1, h1, h2, ?_, hl', by rw [hl1, hl'], ?_, ?_, ?_, hcols1⟩
  · rw [List.take_succ, hk, add_points_append, h1]
    simp [add_points, List.foldlM_cons, h2]
  · rw [← hl']
    exact hc1
  · intro i j hj
    exact hf1 i j (by omega)
  · intro hle
    have := hcols (by
      rw [hlen]
      show (0 : Int) + k ≤ c
      omega)
    exact this

/-- C10: after appending `n` points with `add_point` to a fresh buffer of
capacity `c ≥ 0` (four rows), the logical length is `n` and column `i` holds
`(x_i, y_i, z_i, 1)` for every `i < n`; each call writes at the old logical
length, advances it by one and alters no earlier cell; with `n = c + 1` the
last call grows the buffer to `c + 100` columns. -/
theorem add_point_growth {α : Type} [One α] (c : Int) (hc : 0 ≤ c)
    (pts : List (α × α × α)) :
    ∃ M', add_points (new_matrix 4 c) pts = some M' ∧ M'.lastcol = pts.length ∧
      (∀ (i : Nat) (p : α × α × α), pts[i]? = some p → M'.col i = some (homog p)) ∧
      ((pts.length : Int) = c + 1 → M'.cols = c + 100) ∧
      (∀ (k : Nat) (p : α × α × α), pts[k]? = some p →
        ∃ Mk Mk1 : matrix α, add_points (new_matrix 4 c) (pts.take k) = some Mk ∧
          add_point Mk p.1 p.2.1 p.2.2 = some Mk1 ∧
          add_points (new_matrix 4 c) (pts.take (k + 1)) = some Mk1 ∧
          Mk.lastcol = k ∧ Mk1.lastcol = k + 1 ∧ Mk1.col k = some (homog p) ∧
          (∀ i j, j < (k : Int) → Mk1.read i j = Mk.read i j)) := by
  have hok : (new_matrix 4 c : matrix α).ok := ⟨le_refl _, le_refl _, hc⟩
  obtain ⟨M', h1, _, _, hl, hcol, _, _⟩ := add_points_spec pts (new_matrix 4 c) hok
  have hl0 : (new_matrix 4 c : matrix α).lastcol = 0 := rfl
  refine ⟨M', h1, by rw [hl, hl0, zero_add], ?_, ?_, ?_⟩
  · intro i p hi
    have := hcol i p hi
    rwa [hl0, zero_add] at this
  · intro hn
    have hpos : c.toNat < pts.length := by omega
    obtain ⟨Mk, Mk1, _, _, h3, hlk, _, _, _, hck, hck1⟩ :=
      add_points_step c hc pts c.toNat (pts.get ⟨c.toNat, hpos⟩)
        (List.getElem?_eq_getElem hpos)
    have hfull : pts.take (c.toNat + 1) = pts := List.take_of_length_le (by omega)
    rw [hfull, h1] at h3
    have hM : M' = Mk1 := Option.some.inj h3
    have hcap : Mk.cols = c := hck (by omega)
    have hkc : (c.toNat : Int) = c := Int.toNat_of_nonneg hc
    rw [hM, hck1, hlk, hcap, hkc]
    simp
  · intro k p hk
    obtain ⟨Mk, Mk1, a1, a2, a3, a4, a5, a6, a7, _, _⟩ := add_points_step c hc pts k p hk
    exact ⟨Mk, Mk1, a1, a2, a3, a4, a5, a6, a7⟩

/-- Three points appended to a fresh buffer of capacity 2: the third call
grows the buffer to 102 columns and all three columns are intact. -/
theorem add_point_growth_witness :
    ∃ M', add_points (new_matrix 4 2 : matrix Int) [(5, 6, 7), (8, 9, 10), (11, 12, 13)] = some M' ∧
      M'.lastcol = 3 ∧ M'.cols = 102 ∧ M'.col 0 = some (5, 6, 7, 1) ∧
      M'.col 1 = some (8, 9, 10, 1) ∧ M'.col 2 = some (11, 12, 13, 1) := by
  obtain ⟨M', h1, h2, h3, h4, _⟩ :=
    add_point_growth (2 : Int) (by decide) [((5 : Int), (6 : Int), (7 : Int)), (8, 9, 10), (11, 12, 13)]
  exact ⟨M', h1, by simpa using h2, by simpa using h4 (by decide),
    by simpa [homog] using h3 0 _ rfl, by simpa [homog] using h3 1 _ rfl,
    by simpa [homog] using h3 2 _ rfl⟩

/-! ## Sphere and torus -/

theorem foldlM_flatMap_option {σ ι β : Type} (f : σ → β → Option σ) (g : ι → List β) :
    ∀ (l : List ι) (s : σ),
    l.foldlM (fun s i => (g i).foldlM f s) s = (l.flatMap g).foldlM f s := by
  intro l
  induction l with
  | nil => intro s; rfl
  | cons i l ih =>
    intro s
    rw [List.flatMap_cons, List.foldlM_append, List.foldlM_cons]
    cases h : (g i).foldlM f s with
    | none => rfl
    | some s1 => exact ih s1

theorem generate_sphere_eq_add_points {α : Type} [Field α] (cos sin : α → α)
    (pi cx cy cz r : α) (step : Int) :
    generate_sphere cos sin pi cx cy cz r step =
      add_points (new_matrix (step * step) 4) (sphere_points cos sin pi cx cy cz r step) := by
  unfold generate_sphere add_points sphere_points
  simp only
  rw [← foldlM_flatMap_option]
  congr 1
  funext s i
  rw [List.foldlM_map]

theorem generate_torus_eq_add_points {α : Type} [Field α] (cos sin : α → α)
    (pi cx cy cz r R : α) (step : Int) :
    generate_torus cos sin pi cx cy cz r R step =
      add_points (new_matrix (step * step) 4) (torus_points cos sin pi cx cy cz r R step) := by
  unfold generate_torus add_points torus_points
  simp only
  rw [← foldlM_flatMap_option]
  congr 1
  funext s i
  rw [List.foldlM_map]

theorem loop_le_one_one : loop_le 1 1 = [1] := by decide

/-- With a single row allocated, `add_point` fails at its second write,
`m[1][lastcol]`. -/
theorem add_point_one_row {α : Type} [One α] (cols : Int) (x y z : α) :
    add_point (new_matrix 1 cols : matrix α) x y z = none := by
  unfold add_point
  by_cases h : (new_matrix 1 cols : matrix α).lastcol = (new_matrix 1 cols : matrix α).cols
  · rw [if_pos h]
    simp [matrix.write, grow_matrix, new_matrix]
  · rw [if_neg h]
    by_cases hc : 0 < cols
    · simp [matrix.write, new_matrix, hc]
    · simp [matrix.write, new_matrix, hc]

theorem generate_sphere_step_one {α : Type} [Field α] (cos sin : α → α)
    (pi cx cy cz r : α) : generate_sphere cos sin pi cx cy cz r 1 = none := by
  rw [generate_sphere_eq_add_points]
  simp only [sphere_points, loop_le_one_one, List.flatMap_cons, List.flatMap_nil,
    List.map_cons, List.map_nil, List.append_nil, add_points_cons]
  rw [show ((1 : Int) * 1) = 1 from rfl, add_point_one_row]
  rfl

theorem generate_torus_step_one {α : Type} [Field α] (cos sin : α → α)
    (pi cx cy cz r R : α) : generate_torus cos sin pi cx cy cz r R 1 = none := by
  rw [generate_torus_eq_add_points]
  simp only [torus_points, loop_le_one_one, List.flatMap_cons, List.flatMap_nil,
    List.map_cons, List.map_nil, List.append_nil, add_points_cons]
  rw [show ((1 : Int) * 1) = 1 from rfl, add_point_one_row]
  rfl

/-- C8 (failing input `step = 1`): `generate_sphere` and `generate_torus` create
their buffer with `new_matrix(step * step, 4)`, that is 1 row and 4 columns,
and the first `add_point` writes row 1 outside of it: no buffer of one point
with `w = 1` is returned. -/
theorem generate_step_one_out_of_range {α : Type} [Field α] (cos sin : α → α)
    (pi cx cy cz r R : α) :
    generate_sphere cos sin pi cx cy cz r 1 = none ∧
    generate_torus cos sin pi cx cy cz r R 1 = none :=
  ⟨generate_sphere_step_one cos sin pi cx cy cz r,
    generate_torus_step_one cos sin pi cx cy cz r R⟩

/-- C9 (failing input `step = 1`): `add_sphere` and `add_torus` get no point
buffer from `generate_sphere` and `generate_torus`, whose first `add_point`
writes outside the 1 row allocated, and append nothing. -/
theorem add_step_one_out_of_range {α : Type} [Field α] (cos sin : α → α)
    (pi cx cy cz r R : α) (edges : matrix α) :
    add_sphere cos sin pi edges cx cy cz r 1 = none ∧
    add_torus cos sin pi edges cx cy cz r R 1 = none := by
  constructor
  · unfold add_sphere
    rw [generate_sphere_step_one]
    rfl
  · unfold add_torus
    rw [generate_torus_step_one]
    rfl

/-! ### From `step = 2` on -/

theorem loop_le_one_length (step : Int) : (loop_le 1 step).length = step.toNat := by
  unfold loop_le
  rw [List.length_map, List.length_range]
  congr 1
  omega

theorem grid_length {ι β : Type} (l2 : List ι) (f : ι → ι → β) : ∀ l1 : List ι,
    (l1.flatMap (fun i => l2.map (f i))).length = l1.length * l2.length := by
  intro l1
  induction l1 with
  | nil => simp
  | cons i l ih =>
    rw [List.flatMap_cons, List.length_append, ih, List.length_map, List.length_cons]
    ring

theorem sphere_points_length {α : Type} [Field α] (cos sin : α → α) (pi cx cy cz r : α)
    (step : Int) :
    (sphere_points cos sin pi cx cy cz r step).length = step.toNat * step.toNat := by
  unfold sphere_points
  rw [grid_length, loop_le_one_length]

theorem torus_points_length {α : Type} [Field α] (cos sin : α → α) (pi cx cy cz r R : α)
    (step : Int) :
    (torus_points cos sin pi cx cy cz r R step).length = step.toNat * step.toNat := by
  unfold torus_points
  rw [grid_length, loop_le_one_length]

/-- A grid of `step * step` points appended to `new_matrix(step * step, 4)`,
for `step ≥ 2`: the buffer then has at least the 4 rows `add_point` writes. -/
theorem grid_buffer_spec {α : Type} [One α] (pts : List (α × α × α)) (step : Int)
    (hstep : 2 ≤ step) (hlen : pts.length = step.toNat * step.toNat) :
    ∃ M, add_points (new_matrix (step * step) 4) pts = some M ∧ M.lastcol = step * step ∧
      (∀ (k : Nat) (p : α × α × α), pts[k]? = some p → M.col k = some (homog p)) ∧
      (∀ j : Int, 0 ≤ j → j < step * step → ∃ x y z, M.col j = some (x, y, z, 1)) := by
  have hrows : 4 ≤ step * step := by nlinarith
  have hok : (new_matrix (step * step) 4 : matrix α).ok :=
    ⟨hrows, le_refl _, by show (0 : Int) ≤ 4; decide⟩
  have hcast : ((step.toNat * step.toNat : Nat) : Int) = step * step := by
    push_cast
    rw [Int.toNat_of_nonneg (by omega)]
  obtain ⟨M, h1, _, _, hl, hcol, _, _⟩ := add_points_spec pts (new_matrix (step * step) 4) hok
  have hl0 : (new_matrix (step * step) 4 : matrix α).lastcol = 0 := rfl
  rw [hl0, zero_add] at hl
  have hcol' : ∀ (k : Nat) (p : α × α × α), pts[k]? = some p → M.col k = some (homog p) := by
    intro k p hk
    have := hcol k p hk
    rwa [hl0, zero_add] at this
  refine ⟨M, h1, by rw [hl, hlen, hcast], hcol', ?_⟩
  intro j h0 hj
  have hjlt : j.toNat < pts.length := by
    rw [hlen]
    have : ((j.toNat : Nat) : Int) < ((step.toNat * step.toNat : Nat) : Int) := by
      rw [hcast, Int.toNat_of_nonneg h0]
      exact hj
    exact_mod_cast this
  have := hcol' j.toNat (pts.get ⟨j.toNat, hjlt⟩) (List.getElem?_eq_getElem hjlt)
  rw [Int.toNat_of_nonneg h0] at this
  exact ⟨_, _, _, this⟩

/-- For `step ≥ 2`, `generate_sphere` and `generate_torus` return a buffer of
logical length `step * step` whose points all have `w = 1`. -/
theorem generate_spec_of_two_le {α : Type} [Field α] (cos sin : α → α)
    (pi cx cy cz r R : α) (step : Int) (hstep : 2 ≤ step) :
    (∃ M, generate_sphere cos sin pi cx cy cz r step = some M ∧ M.lastcol = step * step ∧
      (∀ (k : Nat) (p : α × α × α), (sphere_points cos sin pi cx cy cz r step)[k]? = some p →
        M.col k = some (homog p)) ∧
      (∀ j : Int, 0 ≤ j → j < step * step → ∃ x y z, M.col j = some (x, y, z, 1))) ∧
    (∃ M, generate_torus cos sin pi cx cy cz r R step = some M ∧ M.lastcol = step * step ∧
      (∀ (k : Nat) (p : α × α × α), (torus_points cos sin pi cx cy cz r R step)[k]? = some p →
        M.col k = some (homog p)) ∧
      (∀ j : Int, 0 ≤ j → j < step * step → ∃ x y z, M.col j = some (x, y, z, 1))) := by
  constructor
  · rw [generate_sphere_eq_add_points]
    exact grid_buffer_spec _ step hstep (sphere_points_length cos sin pi cx cy cz r step)
  · rw [generate_torus_eq_add_points]
    exact grid_buffer_spec _ step hstep (torus_points_length cos sin pi cx cy cz r R step)

theorem matrix.read_of_col {α : Type} (M : matrix α) (j : Int) (x y z w : α)
    (h : M.col j = some (x, y, z, w)) :
    M.read 0 j = some x ∧ M.read 1 j = some y ∧ M.read 2 j = some z := by
  unfold matrix.col at h
  cases h0 : M.read 0 j with
  | none => simp [h0] at h
  | some a =>
    cases h1 : M.read 1 j with
    | none => simp [h0, h1] at h
    | some b =>
      cases h2 : M.read 2 j with
      | none => simp [h0, h1, h2] at h
      | some c =>
        cases h3 : M.read 3 j with
        | none => simp [h0, h1, h2, h3] at h
        | some e =>
          simp [h0, h1, h2, h3] at h
          simp [h.1, h.2.1, h.2.2.1]

theorem unit_edges_cons {α : Type} [Add α] [One α] (p : α × α × α) (ps : List (α × α × α)) :
    unit_edges (p :: ps) = p :: (p.1 + 1, p.2.1 + 1, p.2.2 + 1) :: unit_edges ps := rfl

theorem unit_edges_length {α : Type} [Add α] [One α] (pts : List (α × α × α)) :
    (unit_edges pts).length = 2 * pts.length := by
  induction pts with
  | nil => rfl
  | cons p ps ih =>
    rw [unit_edges_cons, List.length_cons, List.length_cons, ih, List.length_cons]
    ring

theorem unit_edges_get {α : Type} [Add α] [One α] : ∀ (pts : List (α × α × α)) (k : Nat)
    (p : α × α × α), pts[k]? = some p →
    (unit_edges pts)[2 * k]? = some p ∧
    (unit_edges pts)[2 * k + 1]? = some (p.1 + 1, p.2.1 + 1, p.2.2 + 1) := by
  intro pts
  induction pts with
  | nil => intro k p h; simp at h
  | cons q qs ih =>
    intro k p h
    cases k with
    | zero =>
      simp only [List.getElem?_cons_zero, Option.some.injEq] at h
      subst h
      simp [unit_edges_cons]
    | succ k =>
      simp only [List.getElem?_cons_succ] at h
      obtain ⟨a, b⟩ := ih k p h
      rw [unit_edges_cons]
      have e1 : 2 * (k + 1) = (2 * k + 1) + 1 := by ring
      rw [e1]
      simp only [List.getElem?_cons_succ]
      exact ⟨a, b⟩

/-- The loop of `add_sphere` and `add_torus` over a point buffer `P` holding the
points `pts`: it appends each point followed by the point one unit further on
every axis. -/
theorem read_back_edges {α : Type} [Add α] [One α] (P : matrix α) (pts : List (α × α × α))
    (hP : ∀ (k : Nat) (p : α × α × α), pts[k]? = some p → P.col k = some (homog p)) :
    ∀ (r s : Nat) (E : matrix α), s + r = pts.length →
    ((List.range' s r).map (fun (k : Nat) => (0 : Int) + (k : Int))).foldlM (fun edges i => do
      let x ← P.read 0 i
      let y ← P.read 1 i
      let z ← P.read 2 i
      add_edge edges x y z (x + 1) (y + 1) (z + 1)) E =
      add_points E (unit_edges (pts.drop s)) := by
  intro r
  induction r with
  | zero =>
    intro s E hs
    rw [List.drop_of_length_le (by omega)]
    rfl
  | succ r ih =>
    intro s E hs
    have hlt : s < pts.length := by omega
    have hget : pts[s]? = some (pts.get ⟨s, hlt⟩) := List.getElem?_eq_getElem hlt
    obtain ⟨h0, h1, h2⟩ := matrix.read_of_col P s _ _ _ _ (hP s _ hget)
    have hdrop : pts.drop s = pts.get ⟨s, hlt⟩ :: pts.drop (s + 1) := by
      rw [List.drop_eq_getElem_cons hlt]
      rfl
    rw [hdrop, unit_edges_cons, List.range'_succ, List.map_cons, List.foldlM_cons, zero_add,
      h0, h1, h2]
    simp only [Option.bind_eq_bind, Option.some_bind]
    rw [add_edge_eq_add_points]
    have happ : ∀ (a b : α × α × α) (l : List (α × α × α)),
        add_points E (a :: b :: l) = (add_points E [a, b]).bind (fun M1 => add_points M1 l) :=
      fun a b l => add_points_append E [a, b] l
    rw [happ _ _ (unit_edges (pts.drop (s + 1)))]
    cases hE : add_points E [pts.get ⟨s, hlt⟩,
        ((pts.get ⟨s, hlt⟩).1 + 1, (pts.get ⟨s, hlt⟩).2.1 + 1, (pts.get ⟨s, hlt⟩).2.2 + 1)] with
    | none => rfl
    | some E1 => exact ih (s + 1) E1 (by omega)

/-- The edges appended when the point buffer `P` holds the `step * step` points
`pts` and the edge buffer satisfies the invariant. -/
theorem unit_edges_appended {α : Type} [Add α] [One α] (P edges : matrix α)
    (pts : List (α × α × α)) (step : Int) (hlen : pts.length = (step * step).toNat)
    (hP : ∀ (k : Nat) (p : α × α × α), pts[k]? = some p → P.col k = some (homog p))
    (hok : edges.ok) :
    ∃ E', (loop_lt 0 (step * step)).foldlM (fun edges i => do
        let x ← P.read 0 i
        let y ← P.read 1 i
        let z ← P.read 2 i
        add_edge edges x y z (x + 1) (y + 1) (z + 1)) edges = some E' ∧
      E'.lastcol = edges.lastcol + 2 * (pts.length : Int) ∧
      (∀ (k : Nat) (p : α × α × α), pts[k]? = some p →
        E'.col (edges.lastcol + 2 * (k : Int)) = some (homog p) ∧
        E'.col (edges.lastcol + 2 * (k : Int) + 1) =
          some (homog (p.1 + 1, p.2.1 + 1, p.2.2 + 1))) ∧
      (∀ i j, j < edges.lastcol → E'.read i j = edges.read i j) := by
  obtain ⟨E', h1, _, _, hl, hcol, hframe, _⟩ := add_points_spec (unit_edges pts) edges hok
  refine ⟨E', ?_, ?_, ?_, hframe⟩
  · have := read_back_edges P pts hP pts.length 0 edges (by omega)
    rw [List.drop_zero, h1, ← List.range_eq_range', hlen] at this
    unfold loop_lt
    rw [sub_zero]
    exact this
  · rw [hl, unit_edges_length]
    push_cast
    rfl
  · intro k p hk
    obtain ⟨a, b⟩ := unit_edges_get pts k p hk
    have ha := hcol _ _ a
    have hb := hcol _ _ b
    push_cast at ha hb
    rw [← add_assoc] at hb
    exact ⟨ha, hb⟩

/-- For `step ≥ 2` and an edge buffer satisfying the invariant, `add_sphere` and
`add_torus` append `2 * step * step` points: the `k`-th generated point
followed by the same point offset by one unit on every axis. -/
theorem add_spec_of_two_le {α : Type} [Field α] (cos sin : α → α)
    (pi cx cy cz r R : α) (step : Int) (hstep : 2 ≤ step) (edges : matrix α) (hok : edges.ok) :
    (∃ E', add_sphere cos sin pi edges cx cy cz r step = some E' ∧
      E'.lastcol = edges.lastcol + 2 * step * step ∧
      (∀ (k : Nat) (p : α × α × α), (sphere_points cos sin pi cx cy cz r step)[k]? = some p →
        E'.col (edges.lastcol + 2 * (k : Int)) = some (homog p) ∧
        E'.col (edges.lastcol + 2 * (k : Int) + 1) =
          some (homog (p.1 + 1, p.2.1 + 1, p.2.2 + 1))) ∧
      (∀ i j, j < edges.lastcol → E'.read i j = edges.read i j)) ∧
    (∃ E', add_torus cos sin pi edges cx cy cz r R step = some E' ∧
      E'.lastcol = edges.lastcol + 2 * step * step ∧
      (∀ (k : Nat) (p : α × α × α), (torus_points cos sin pi cx cy cz r R step)[k]? = some p →
        E'.col (edges.lastcol + 2 * (k : Int)) = some (homog p) ∧
        E'.col (edges.lastcol + 2 * (k : Int) + 1) =
          some (homog (p.1 + 1, p.2.1 + 1, p.2.2 + 1))) ∧
      (∀ i j, j < edges.lastcol → E'.read i j = edges.read i j)) := by
  have hsq : (step * step).toNat = step.toNat * step.toNat := by
    have h1 : ((step.toNat * step.toNat : Nat) : Int) = step * step := by
      push_cast
      rw [Int.toNat_of_nonneg (by omega)]
    have h2 : 0 ≤ step * step := by nlinarith
    omega
  obtain ⟨⟨P, hP, _, hPcol, _⟩, ⟨Q, hQ, _, hQcol, _⟩⟩ :=
    generate_spec_of_two_le cos sin pi cx cy cz r R step hstep
  constructor
  · have hlen : (sphere_points cos sin pi cx cy cz r step).length = (step * step).toNat := by
      rw [sphere_points_length, hsq]
    obtain ⟨E', h1, h2, h3, h4⟩ := unit_edges_appended P edges _ step hlen hPcol hok
    refine ⟨E', ?_, ?_, h3, h4⟩
    · unfold add_sphere
      rw [hP]
      exact h1
    · rw [h2, hlen, Int.toNat_of_nonneg (by nlinarith)]
      ring
  · have hlen : (torus_points cos sin pi cx cy cz r R step).length = (step * step).toNat := by
      rw [torus_points_length, hsq]
    obtain ⟨E', h1, h2, h3, h4⟩ := unit_edges_appended Q edges _ step hlen hQcol hok
    refine ⟨E', ?_, ?_, h3, h4⟩
    · unfold add_torus
      rw [hQ]
      exact h1
    · rw [h2, hlen, Int.toNat_of_nonneg (by nlinarith)]
      ring

/-! ## Circle and curve -/

theorem edge_points_cons {β : Type} (e : β × β) (es : List (β × β)) :
    edge_points (e :: es) = e.1 :: e.2 :: edge_points es := rfl

theorem edge_points_length {β : Type} (es : List (β × β)) :
    (edge_points es).length = 2 * es.length := by
  induction es with
  | nil => rfl
  | cons e es ih =>
    rw [edge_points_cons, List.length_cons, List.length_cons, ih, List.length_cons]
    ring

theorem edge_points_get {β : Type} : ∀ (es : List (β × β)) (k : Nat) (e : β × β),
    es[k]? = some e →
    (edge_points es)[2 * k]? = some e.1 ∧ (edge_points es)[2 * k + 1]? = some e.2 := by
  intro es
  induction es with
  | nil => intro k e h; simp at h
  | cons q qs ih =>
    intro k e h
    cases k with
    | zero =>
      simp only [List.getElem?_cons_zero, Option.some.injEq] at h
      subst h
      simp [edge_points_cons]
    | succ k =>
      simp only [List.getElem?_cons_succ] at h
      obtain ⟨a, b⟩ := ih k e h
      rw [edge_points_cons]
      have e1 : 2 * (k + 1) = (2 * k + 1) + 1 := by ring
      rw [e1]
      simp only [List.getElem?_cons_succ]
      exact ⟨a, b⟩

theorem add_circle_for_eq {α : Type} [Field α] (cos sin : α → α) (pi cx cy cz r : α)
    (step : Int) : ∀ (is : List Int) (edges : matrix α) (x0 y0 : α),
    add_circle_for cos sin pi cx cy cz r step is edges x0 y0 =
      add_points edges (edge_points (chain_edges (x0, y0, cz)
        (is.map (circle_point cos sin pi cx cy cz r step)))) := by
  intro is
  induction is with
  | nil => intro edges x0 y0; rfl
  | cons i rest ih =>
    intro edges x0 y0
    rw [List.map_cons, chain_edges, edge_points_cons]
    have happ : ∀ (a b : α × α × α) (l : List (α × α × α)),
        add_points edges (a :: b :: l) =
          (add_points edges [a, b]).bind (fun M1 => add_points M1 l) :=
      fun a b l => add_points_append edges [a, b] l
    rw [happ, add_circle_for]
    simp only [Option.bind_eq_bind]
    rw [add_edge_eq_add_points]
    cases hE : add_points edges [(x0, y0, cz), circle_point cos sin pi cx cy cz r step i] with
    | none =>
      simp only [circle_point] at hE
      simp [hE]
    | some E1 =>
      simp only [circle_point] at hE
      simp only [hE, Option.some_bind]
      exact ih E1 _ _

theorem add_circle_eq_add_points {α : Type} [Field α] (cos sin : α → α)
    (pi cx cy cz r : α) (step : Int) (edges : matrix α) :
    add_circle cos sin pi edges cx cy cz r step =
      add_points edges (edge_points (chain_edges (r + cx, cy, cz)
        ((loop_le 1 step).map (circle_point cos sin pi cx cy cz r step)))) :=
  add_circle_for_eq cos sin pi cx cy cz r step _ edges _ _

theorem add_curve_for_eq {α : Type} [Field α] (xcoefs ycoefs : matrix α)
    (xa xb xc xd ya yb yc yd : α) (step : Int)
    (hx0 : xcoefs.read 0 0 = some xa) (hx1 : xcoefs.read 1 0 = some xb)
    (hx2 : xcoefs.read 2 0 = some xc) (hx3 : xcoefs.read 3 0 = some xd)
    (hy0 : ycoefs.read 0 0 = some ya) (hy1 : ycoefs.read 1 0 = some yb)
    (hy2 : ycoefs.read 2 0 = some yc) (hy3 : ycoefs.read 3 0 = some yd) :
    ∀ (is : List Int) (edges : matrix α) (x0 y0 : α),
    add_curve_for xcoefs ycoefs step is edges x0 y0 =
      add_points edges (edge_points (chain_edges (x0, y0, 0)
        (is.map (curve_point xa xb xc xd ya yb yc yd step)))) := by
  intro is
  induction is with
  | nil => intro edges x0 y0; rfl
  | cons i rest ih =>
    intro edges x0 y0
    rw [List.map_cons, chain_edges, edge_points_cons]
    have happ : ∀ (a b : α × α × α) (l : List (α × α × α)),
        add_points edges (a :: b :: l) =
          (add_points edges [a, b]).bind (fun M1 => add_points M1 l) :=
      fun a b l => add_points_append edges [a, b] l
    rw [happ, add_curve_for]
    simp only [Option.bind_eq_bind, hx0, hx1, hx2, hx3, hy0, hy1, hy2, hy3, Option.some_bind,
      Option.pure_def]
    rw [add_edge_eq_add_points]
    cases hE : add_points edges [(x0, y0, 0), curve_point xa xb xc xd ya yb yc yd step i] with
    | none =>
      simp only [curve_point] at hE
      simp [hE]
    | some E1 =>
      simp only [curve_point] at hE
      simp only [hE, Option.some_bind]
      exact ih E1 _ _

theorem add_curve_eq_add_points {α : Type} [Field α]
    (generate_curve_coefs : α → α → α → α → Int → matrix α) (edges : matrix α)
    (x0 y0 x1 y1 x2 y2 x3 y3 : α) (step type : Int) (xa xb xc xd ya yb yc yd : α)
    (hx : (generate_curve_coefs x0 x1 x2 x3 type).holds_coefs xa xb xc xd)
    (hy : (generate_curve_coefs y0 y1 y2 y3 type).holds_coefs ya yb yc yd) :
    add_curve generate_curve_coefs edges x0 y0 x1 y1 x2 y2 x3 y3 step type =
      add_points edges (edge_points (chain_edges (x0, y0, 0)
        ((loop_le 1 step).map (curve_point xa xb xc xd ya yb yc yd step)))) :=
  add_curve_for_eq _ _ xa xb xc xd ya yb yc yd step hx.1 hx.2.1 hx.2.2.1 hx.2.2.2
    hy.1 hy.2.1 hy.2.2.1 hy.2.2.2 _ edges _ _

theorem bezier_holds_coefs {α : Type} [Field α] (p0 p1 p2 p3 : α) (type : Int) :
    (bezier_curve_coefs p0 p1 p2 p3 type).holds_coefs (-p0 + 3 * p1 - 3 * p2 + p3)
      (3 * p0 - 6 * p1 + 3 * p2) (-3 * p0 + 3 * p1) p0 := by
  simp [matrix.holds_coefs, matrix.read, bezier_curve_coefs]

theorem box_points_zero_extent {α : Type} [Ring α] (x y z : α) :
    box_edges.flatMap (fun e => [box_corner x y z 0 0 0 e.1, box_corner x y z 0 0 0 e.2]) =
      List.replicate 24 (x, y, z) := by
  simp [box_edges, box_corner, List.flatMap, List.replicate]

/-- C14 (as amended): `add_box` with `w = h = d = 0` applied to an empty edge
buffer appends 24 points, the endpoints of 12 degenerate edges, each equal to
the corner `(x, y, z)` with `w = 1`; the logical length becomes 24 and no error
is signalled. -/
theorem add_box_zero_extent {α : Type} [Ring α] (c : Int) (hc : 0 ≤ c) (x y z : α) :
    ∃ M', add_box (new_matrix 4 c : matrix α) x y z 0 0 0 = some M' ∧ M'.lastcol = 24 ∧
      (∀ k : Int, 0 ≤ k → k < 24 → M'.col k = some (x, y, z, 1)) := by
  have hok : (new_matrix 4 c : matrix α).ok := ⟨le_refl _, le_refl _, hc⟩
  obtain ⟨M', h1, _, _, hl, hcol, _, _⟩ :=
    add_points_spec (List.replicate 24 (x, y, z)) (new_matrix 4 c : matrix α) hok
  have hl0 : (new_matrix 4 c : matrix α).lastcol = 0 := rfl
  refine ⟨M', ?_, ?_, ?_⟩
  · rw [add_box_eq_add_points, box_points_zero_extent]
    exact h1
  · rw [hl, hl0]
    simp
  · intro k h0 h24
    have hk : k.toNat < 24 := by omega
    have := hcol k.toNat (x, y, z) (by
      rw [List.getElem?_replicate]
      simp [hk])
    rw [hl0, zero_add, Int.toNat_of_nonneg h0] at this
    exact this

/-- The box with corner `(2, 3, 5)` and zero extents on a fresh buffer: length
24, the first and the last column are the corner. -/
theorem add_box_zero_extent_witness :
    ∃ M', add_box (new_matrix 4 0 : matrix Int) 2 3 5 0 0 0 = some M' ∧ M'.lastcol = 24 ∧
      M'.col 0 = some (2, 3, 5, 1) ∧ M'.col 23 = some (2, 3, 5, 1) := by
  obtain ⟨M', h1, h2, h3⟩ := add_box_zero_extent (0 : Int) (by decide) (2 : Int) 3 5
  exact ⟨M', h1, h2, h3 0 (by decide) (by decide), h3 23 (by decide) (by decide)⟩

/-- C14 (counterexample): `add_box` with `w = h = d = 0` on the empty buffer
`new_matrix(4, 0)` returns a buffer of logical length 24, not an empty one. -/
theorem add_box_zero_extent_not_empty :
    (∃ M', add_box (new_matrix 4 0 : matrix Int) 0 0 0 0 0 0 = some M' ∧ M'.lastcol = 24) ∧
    ¬ ∃ M', add_box (new_matrix 4 0 : matrix Int) 0 0 0 0 0 0 = some M' ∧ M'.lastcol = 0 := by
  have hok : (new_matrix 4 0 : matrix Int).ok := ⟨le_refl _, le_refl _, le_refl _⟩
  obtain ⟨M', h1, _, _, hl, _⟩ :=
    add_points_spec (List.replicate 24 ((0 : Int), (0 : Int), (0 : Int)))
      (new_matrix 4 0 : matrix Int) hok
  have hl' : M'.lastcol = 24 := by
    rw [hl]
    rfl
  have hbox : add_box (new_matrix 4 0 : matrix Int) 0 0 0 0 0 0 = some M' := by
    rw [add_box_eq_add_points, box_points_zero_extent]
    exact h1
  refine ⟨⟨M', hbox, hl'⟩, ?_⟩
  rintro ⟨N, hN, hN0⟩
  rw [hbox] at hN
  have : M' = N := Option.some.inj hN
  rw [← this, hl'] at hN0
  exact absurd hN0 (by decide)

theorem loop_le_one_zero : loop_le 1 0 = [] := by decide

theorem loop_lt_zero_zero : loop_lt 0 (0 * 0) = [] := by decide

/-- C15: with `step = 0`, `generate_sphere` and `generate_torus` return a buffer
of logical length 0, and `add_sphere`, `add_torus`, `add_circle` and `add_curve`
return the edge buffer as it was: no point is appended and no error is
signalled. -/
theorem empty_step {α : Type} [Field α] (cos sin : α → α) (pi cx cy cz r R : α)
    (generate_curve_coefs : α → α → α → α → Int → matrix α) (edges : matrix α)
    (x0 y0 x1 y1 x2 y2 x3 y3 : α) (type : Int) :
    (∃ M, generate_sphere cos sin pi cx cy cz r 0 = some M ∧ M.lastcol = 0) ∧
    (∃ M, generate_torus cos sin pi cx cy cz r R 0 = some M ∧ M.lastcol = 0) ∧
    add_sphere cos sin pi edges cx cy cz r 0 = some edges ∧
    add_torus cos sin pi edges cx cy cz r R 0 = some edges ∧
    add_circle cos sin pi edges cx cy cz r 0 = some edges ∧
    add_curve generate_curve_coefs edges x0 y0 x1 y1 x2 y2 x3 y3 0 type = some edges := by
  have hs : generate_sphere cos sin pi cx cy cz r 0 = some (new_matrix (0 * 0) 4) := by
    unfold generate_sphere
    rw [loop_le_one_zero]
    rfl
  have ht : generate_torus cos sin pi cx cy cz r R 0 = some (new_matrix (0 * 0) 4) := by
    unfold generate_torus
    rw [loop_le_one_zero]
    rfl
  refine ⟨⟨_, hs, rfl⟩, ⟨_, ht, rfl⟩, ?_, ?_, ?_, ?_⟩
  · unfold add_sphere
    rw [hs, loop_lt_zero_zero]
    rfl
  · unfold add_torus
    rw [ht, loop_lt_zero_zero]
    rfl
  · unfold add_circle
    rw [loop_le_one_zero]
    rfl
  · unfold add_curve
    rw [loop_le_one_zero]
    rfl

/-! ## The closed form of `draw_line` -/

/-- The rounding of `ideal_minor`: `J = ideal_minor k D E` is the integer with
`2*D*(J-1) < 2*k*E - D ≤ 2*D*J`. -/
theorem ideal_minor_eq_iff (k D E j : Int) (hD : 0 < D) :
    ideal_minor k D E = j ↔ 2 * D * (j - 1) < 2 * k * E - D ∧ 2 * k * E - D ≤ 2 * D * j := by
  have hpos : (0 : ℚ) < ((2 * D : Int) : ℚ) := by
    have : (0 : Int) < 2 * D := by omega
    exact_mod_cast this
  unfold ideal_minor
  rw [Int.ceil_eq_iff, lt_div_iff₀ hpos, div_le_iff₀ hpos]
  constructor
  · rintro ⟨h1, h2⟩
    have h1' : (j - 1) * (2 * D) < 2 * k * E - D := by exact_mod_cast h1
    have h2' : 2 * k * E - D ≤ j * (2 * D) := by exact_mod_cast h2
    constructor <;> nlinarith
  · rintro ⟨h1, h2⟩
    have h1' : (j - 1) * (2 * D) < 2 * k * E - D := by nlinarith
    have h2' : 2 * k * E - D ≤ j * (2 * D) := by nlinarith
    exact ⟨by exact_mod_cast h1', by exact_mod_cast h2'⟩

theorem ideal_minor_bounds (k D E : Int) (hD : 0 < D) :
    2 * D * (ideal_minor k D E - 1) < 2 * k * E - D ∧
    2 * k * E - D ≤ 2 * D * ideal_minor k D E :=
  (ideal_minor_eq_iff k D E _ hD).1 rfl

theorem ideal_minor_zero (D E : Int) (hD : 0 < D) : ideal_minor 0 D E = 0 := by
  rw [ideal_minor_eq_iff _ _ _ _ hD]
  constructor <;> nlinarith

theorem ideal_minor_last (D E : Int) (hD : 0 < D) : ideal_minor D D E = E := by
  rw [ideal_minor_eq_iff _ _ _ _ hD]
  constructor <;> nlinarith

theorem ideal_minor_flat (k D : Int) (hD : 0 < D) : ideal_minor k D 0 = 0 := by
  rw [ideal_minor_eq_iff _ _ _ _ hD]
  constructor <;> nlinarith

/-- Consecutive ideal offsets differ by 0 or 1 when `0 ≤ E ≤ D`. -/
theorem ideal_minor_step (k D E : Int) (hD : 0 < D) (hE : 0 ≤ E) (hED : E ≤ D) :
    ideal_minor (k + 1) D E = ideal_minor k D E ∨
    ideal_minor (k + 1) D E = ideal_minor k D E + 1 := by
  obtain ⟨a, b⟩ := ideal_minor_bounds k D E hD
  by_cases h : 2 * (k + 1) * E - D ≤ 2 * D * ideal_minor k D E
  · left
    rw [ideal_minor_eq_iff _ _ _ _ hD]
    constructor <;> nlinarith
  · right
    rw [ideal_minor_eq_iff _ _ _ _ hD]
    constructor <;> nlinarith

theorem tdiv_two_mul (a : Int) : (2 * a).tdiv 2 = a :=
  Int.mul_tdiv_cancel_left _ (by decide)

theorem tdiv_neg_two_mul (a : Int) : (-2 * a).tdiv 2 = -a := by
  rw [show -2 * a = 2 * (-a) by ring]
  exact tdiv_two_mul _

/-- The arithmetic of one step of the midpoint test: with `j` the ideal minor
offset at step `k`, the error term `e = 2*E*(k+1) - D - 2*D*j` stays within
`(2*E - 2*D, 2*E]`, the offset within `[0, E]`, and the offset at step `k+1` is
`j + 1` when `e > 0` and `j` otherwise. -/
theorem midpoint_step (k D E j : Int) (hD : 0 < D) (hE : 0 ≤ E) (hED : E ≤ D)
    (hk0 : 0 ≤ k) (hkD : k + 1 ≤ D)
    (h1 : 2 * D * (j - 1) < 2 * k * E - D) (h2 : 2 * k * E - D ≤ 2 * D * j) :
    0 ≤ j ∧ j ≤ E ∧ 2 * E - 2 * D < 2 * E * (k + 1) - D - 2 * D * j ∧
    2 * E * (k + 1) - D - 2 * D * j ≤ 2 * E ∧
    (2 * E * (k + 1) - D - 2 * D * j > 0 →
      j + 1 ≤ E ∧ 2 * D * (j + 1 - 1) < 2 * (k + 1) * E - D ∧
        2 * (k + 1) * E - D ≤ 2 * D * (j + 1)) ∧
    (¬ 2 * E * (k + 1) - D - 2 * D * j > 0 →
      2 * D * (j - 1) < 2 * (k + 1) * E - D ∧ 2 * (k + 1) * E - D ≤ 2 * D * j) := by
  have hjlo : 0 ≤ j := by
    by_contra hcon
    have hj' : j ≤ -1 := by omega
    nlinarith [mul_nonneg (sub_nonneg.2 hj') hD.le, mul_nonneg hk0 hE]
  have hjhi : j ≤ E := by
    by_contra hcon
    have hj' : E + 1 ≤ j := by omega
    nlinarith [mul_nonneg (sub_nonneg.2 hj') hD.le, mul_nonneg (sub_nonneg.2 hkD) hE]
  refine ⟨hjlo, hjhi, by nlinarith, by nlinarith, ?_, ?_⟩
  · intro hstep
    refine ⟨?_, by nlinarith, by nlinarith⟩
    by_contra hcon
    have hj' : E ≤ j := by omega
    nlinarith [mul_nonneg (sub_nonneg.2 hj') hD.le, mul_nonneg (sub_nonneg.2 hkD) hE]
  · intro hstep
    exact ⟨by nlinarith, by nlinarith⟩

theorem midpoint_last (D E j : Int) (hD : 0 < D)
    (h1 : 2 * D * (j - 1) < 2 * D * E - D) (h2 : 2 * D * E - D ≤ 2 * D * j) : j = E := by
  apply le_antisymm
  · by_contra hcon
    nlinarith
  · by_contra hcon
    nlinarith

/-- The loop of octant 1 from step `k` on, with the minor offset `j` the ideal
one and `d` the error term of the midpoint test, when the line fits (no
result overflows): it plots the ideal pixels `k, ..., D-1` and exits at the
endpoint. -/
theorem octant1_while_closed (x0 y0 D E : Int) (hD : 0 < D) (hE : 0 ≤ E) (hED : E ≤ D)
    (hDs : D < 1073741824) (hM0 : is_int (x0)) (hM1 : is_int (x0 + D))
    (hm0 : is_int (y0)) (hm1 : is_int (y0 + E)) :
    ∀ (n k fuel : Nat) (j x1 A B x y d : Int), n ≤ fuel → (k : Int) + n = D →
    x1 = x0 + D → A = 2 * E → B = -2 * D → x = x0 + k → y = y0 + j →
    d = 2 * E * (k + 1) - D - 2 * D * j →
    2 * D * (j - 1) < 2 * k * E - D → 2 * k * E - D ≤ 2 * D * j →
    (octant1_while fuel x1 A B x y d).plots =
      (List.range' k n).map (fun (i : Nat) => (x0 + (i : Int), y0 + ideal_minor i D E)) ∧
    (octant1_while fuel x1 A B x y d).x = x0 + D ∧
    (octant1_while fuel x1 A B x y d).y = y0 + E := by
  unfold is_int at hM0 hM1 hm0 hm1
  intro n
  induction n with
  | zero =>
    intro k fuel j x1 A B x y d _ hk hx1 hA hB hmaj hmin hd h1 h2
    have hc : ¬ (x < x1) := by omega
    have hj : j = E := by
      have hkD : (k : Int) = D := by omega
      rw [hkD] at h1 h2
      exact midpoint_last D E j hD h1 h2
    rw [octant1_while_exit fuel x1 A B x y d hc]
    simp only [List.range'_zero, List.map_nil, true_and]
    constructor <;> omega
  | succ n ih =>
    intro k fuel j x1 A B x y d hfuel hk hx1 hA hB hmaj hmin hd h1 h2
    obtain ⟨f, rfl⟩ : ∃ f, fuel = f + 1 := ⟨fuel - 1, by omega⟩
    have hc : x < x1 := by omega
    have hJ : ideal_minor k D E = j := (ideal_minor_eq_iff k D E j hD).2 ⟨h1, h2⟩
    obtain ⟨hjlo, hjhi, hdlo, hdhi, hyes, hno⟩ :=
      midpoint_step k D E j hD hE hED (Int.ofNat_nonneg k) (by omega) h1 h2
    have he : 2 * E * ((k : Int) + 1) - D - 2 * D * j = d := by
      linear_combination (-1 : Int) * hd
    rw [he] at hdlo hdhi hyes hno
    have he' : d = 2 * E * (k + 1) - D - 2 * D * j := hd
    clear h1 h2 he hd
    have wmaj : wrap32 (x + 1) = x + 1 := wrap32_of_int (x + 1) (by omega) (by omega)
    rw [octant1_while]
    simp only [hc, if_true, List.range'_succ, List.map_cons, wmaj]
    by_cases hstep : d > 0
    · simp only [hstep, if_true]
      obtain ⟨hj1, hb1, hb2⟩ := hyes (by omega)
      have wmin : wrap32 (y + 1) = y + 1 := wrap32_of_int (y + 1) (by omega) (by omega)
      have wd1 : wrap32 (d + B) = d + B := wrap32_of_int (d + B) (by omega) (by omega)
      have wd2 : wrap32 (d + B + A) = d + B + A := wrap32_of_int (d + B + A) (by omega) (by omega)
      simp only [wmin, wd1, wd2]
      obtain ⟨a, b, c⟩ := ih (k + 1) f (j + 1) x1 A B (x + 1) (y + 1) (d + B + A)
        (by omega) (by push_cast; omega) hx1 hA hB (by push_cast; omega) (by omega)
        (by push_cast; simp only [hA, hB]; linear_combination (1 : Int) * he')
        (by push_cast; exact hb1)
        (by push_cast; exact hb2)
      refine ⟨?_, b, c⟩
      rw [a, hJ, hmaj, hmin]
    · simp only [hstep, if_false]
      obtain ⟨hb1, hb2⟩ := hno (by omega)
      have wd0 : wrap32 (d + A) = d + A := wrap32_of_int (d + A) (by omega) (by omega)
      simp only [wd0]
      obtain ⟨a, b, c⟩ := ih (k + 1) f j x1 A B (x + 1) y (d + A)
        (by omega) (by push_cast; omega) hx1 hA hB (by push_cast; omega) (by omega)
        (by push_cast; simp only [hA, hB]; linear_combination (1 : Int) * he')
        (by push_cast; exact hb1)
        (by push_cast; exact hb2)
      refine ⟨?_, b, c⟩
      rw [a, hJ, hmaj, hmin]

/-- The loop of octant 8 from step `k` on, with the minor offset `j` the ideal
one and `d` the error term of the midpoint test, when the line fits (no
result overflows): it plots the ideal pixels `k, ..., D-1` and exits at the
endpoint. -/
theorem octant8_while_closed (x0 y0 D E : Int) (hD : 0 < D) (hE : 0 ≤ E) (hED : E ≤ D)
    (hDs : D < 1073741824) (hM0 : is_int (x0)) (hM1 : is_int (x0 + D))
    (hm0 : is_int (y0)) (hm1 : is_int (y0 - E)) :
    ∀ (n k fuel : Nat) (j x1 A B x y d : Int), n ≤ fuel → (k : Int) + n = D →
    x1 = x0 + D → A = -2 * E → B = -2 * D → x = x0 + k → y = y0 - j →
    d = -(2 * E * (k + 1)) + D + 2 * D * j →
    2 * D * (j - 1) < 2 * k * E - D → 2 * k * E - D ≤ 2 * D * j →
    (octant8_while fuel x1 A B x y d).plots =
      (List.range' k n).map (fun (i : Nat) => (x0 + (i : Int), y0 - ideal_minor i D E)) ∧
    (octant8_while fuel x1 A B x y d).x = x0 + D ∧
    (octant8_while fuel x1 A B x y d).y = y0 - E := by
  unfold is_int at hM0 hM1 hm0 hm1
  intro n
  induction n with
  | zero =>
    intro k fuel j x1 A B x y d _ hk hx1 hA hB hmaj hmin hd h1 h2
    have hc : ¬ (x < x1) := by omega
    have hj : j = E := by
      have hkD : (k : Int) = D := by omega
      rw [hkD] at h1 h2
      exact midpoint_last D E j hD h1 h2
    rw [octant8_while_exit fuel x1 A B x y d hc]
    simp only [List.range'_zero, List.map_nil, true_and]
    constructor <;> omega
  | succ n ih =>
    intro k fuel j x1 A B x y d hfuel hk hx1 hA hB hmaj hmin hd h1 h2
    obtain ⟨f, rfl⟩ : ∃ f, fuel = f + 1 := ⟨fuel - 1, by omega⟩
    have hc : x < x1 := by omega
    have hJ : ideal_minor k D E = j := (ideal_minor_eq_iff k D E j hD).2 ⟨h1, h2⟩
    obtain ⟨hjlo, hjhi, hdlo, hdhi, hyes, hno⟩ :=
      midpoint_step k D E j hD hE hED (Int.ofNat_nonneg k) (by omega) h1 h2
    have he : 2 * E * ((k : Int) + 1) - D - 2 * D * j = -d := by
      linear_combination (1 : Int) * hd
    rw [he] at hdlo hdhi hyes hno
    have he' : d = -(2 * E * (k + 1)) + D + 2 * D * j := hd
    clear h1 h2 he hd
    have wmaj : wrap32 (x + 1) = x + 1 := wrap32_of_int (x + 1) (by omega) (by omega)
    rw [octant8_while]
    simp only [hc, if_true, List.range'_succ, List.map_cons, wmaj]
    by_cases hstep : d < 0
    · simp only [hstep, if_true]
      obtain ⟨hj1, hb1, hb2⟩ := hyes (by omega)
      have wmin : wrap32 (y - 1) = y - 1 := wrap32_of_int (y - 1) (by omega) (by omega)
      have wd1 : wrap32 (d - B) = d - B := wrap32_of_int (d - B) (by omega) (by omega)
      have wd2 : wrap32 (d - B + A) = d - B + A := wrap32_of_int (d - B + A) (by omega) (by omega)
      simp only [wmin, wd1, wd2]
      obtain ⟨a, b, c⟩ := ih (k + 1) f (j + 1) x1 A B (x + 1) (y - 1) (d - B + A)
        (by omega) (by push_cast; omega) hx1 hA hB (by push_cast; omega) (by omega)
        (by push_cast; simp only [hA, hB]; linear_combination (1 : Int) * he')
        (by push_cast; exact hb1)
        (by push_cast; exact hb2)
      refine ⟨?_, b, c⟩
      rw [a, hJ, hmaj, hmin]
    · simp only [hstep, if_false]
      obtain ⟨hb1, hb2⟩ := hno (by omega)
      have wd0 : wrap32 (d + A) = d + A := wrap32_of_int (d + A) (by omega) (by omega)
      simp only [wd0]
      obtain ⟨a, b, c⟩ := ih (k + 1) f j x1 A B (x + 1) y (d + A)
        (by omega) (by push_cast; omega) hx1 hA hB (by push_cast; omega) (by omega)
        (by push_cast; simp only [hA, hB]; linear_combination (1 : Int) * he')
        (by push_cast; exact hb1)
        (by push_cast; exact hb2)
      refine ⟨?_, b, c⟩
      rw [a, hJ, hmaj, hmin]

/-- The loop of octant 2 from step `k` on, with the minor offset `j` the ideal
one and `d` the error term of the midpoint test, when the line fits (no
result overflows): it plots the ideal pixels `k, ..., D-1` and exits at the
endpoint. -/
theorem octant2_while_closed (x0 y0 D E : Int) (hD : 0 < D) (hE : 0 ≤ E) (hED : E ≤ D)
    (hDs : D < 1073741824) (hM0 : is_int (y0)) (hM1 : is_int (y0 + D))
    (hm0 : is_int (x0)) (hm1 : is_int (x0 + E)) :
    ∀ (n k fuel : Nat) (j x1 A B x y d : Int), n ≤ fuel → (k : Int) + n = D →
    x1 = y0 + D → A = 2 * D → B = -2 * E → y = y0 + k → x = x0 + j →
    d = D - 2 * E * (k + 1) + 2 * D * j →
    2 * D * (j - 1) < 2 * k * E - D → 2 * k * E - D ≤ 2 * D * j →
    (octant2_while fuel x1 A B x y d).plots =
      (List.range' k n).map (fun (i : Nat) => (x0 + ideal_minor i D E, y0 + (i : Int))) ∧
    (octant2_while fuel x1 A B x y d).x = x0 + E ∧
    (octant2_while fuel x1 A B x y d).y = y0 + D := by
  unfold is_int at hM0 hM1 hm0 hm1
  intro n
  induction n with
  | zero =>
    intro k fuel j x1 A B x y d _ hk hx1 hA hB hmaj hmin hd h1 h2
    have hc : ¬ (y < x1) := by omega
    have hj : j = E := by
      have hkD : (k : Int) = D := by omega
      rw [hkD] at h1 h2
      exact midpoint_last D E j hD h1 h2
    rw [octant2_while_exit fuel x1 A B x y d hc]
    simp only [List.range'_zero, List.map_nil, true_and]
    constructor <;> omega
  | succ n ih =>
    intro k fuel j x1 A B x y d hfuel hk hx1 hA hB hmaj hmin hd h1 h2
    obtain ⟨f, rfl⟩ : ∃ f, fuel = f + 1 := ⟨fuel - 1, by omega⟩
    have hc : y < x1 := by omega
    have hJ : ideal_minor k D E = j := (ideal_minor_eq_iff k D E j hD).2 ⟨h1, h2⟩
    obtain ⟨hjlo, hjhi, hdlo, hdhi, hyes, hno⟩ :=
      midpoint_step k D E j hD hE hED (Int.ofNat_nonneg k) (by omega) h1 h2
    have he : 2 * E * ((k : Int) + 1) - D - 2 * D * j = -d := by
      linear_combination (1 : Int) * hd
    rw [he] at hdlo hdhi hyes hno
    have he' : d = D - 2 * E * (k + 1) + 2 * D * j := hd
    clear h1 h2 he hd
    have wmaj : wrap32 (y + 1) = y + 1 := wrap32_of_int (y + 1) (by omega) (by omega)
    rw [octant2_while]
    simp only [hc, if_true, List.range'_succ, List.map_cons, wmaj]
    by_cases hstep : d < 0
    · simp only [hstep, if_true]
      obtain ⟨hj1, hb1, hb2⟩ := hyes (by omega)
      have wmin : wrap32 (x + 1) = x + 1 := wrap32_of_int (x + 1) (by omega) (by omega)
      have wd1 : wrap32 (d + A) = d + A := wrap32_of_int (d + A) (by omega) (by omega)
      have wd2 : wrap32 (d + A + B) = d + A + B := wrap32_of_int (d + A + B) (by omega) (by omega)
      simp only [wmin, wd1, wd2]
      obtain ⟨a, b, c⟩ := ih (k + 1) f (j + 1) x1 A B (x + 1) (y + 1) (d + A + B)
        (by omega) (by push_cast; omega) hx1 hA hB (by push_cast; omega) (by omega)
        (by push_cast; simp only [hA, hB]; linear_combination (1 : Int) * he')
        (by push_cast; exact hb1)
        (by push_cast; exact hb2)
      refine ⟨?_, b, c⟩
      rw [a, hJ, hmaj, hmin]
    · simp only [hstep, if_false]
      obtain ⟨hb1, hb2⟩ := hno (by omega)
      have wd0 : wrap32 (d + B) = d + B := wrap32_of_int (d + B) (by omega) (by omega)
      simp only [wd0]
      obtain ⟨a, b, c⟩ := ih (k + 1) f j x1 A B x (y + 1) (d + B)
        (by omega) (by push_cast; omega) hx1 hA hB (by push_cast; omega) (by omega)
        (by push_cast; simp only [hA, hB]; linear_combination (1 : Int) * he')
        (by push_cast; exact hb1)
        (by push_cast; exact hb2)
      refine ⟨?_, b, c⟩
      rw [a, hJ, hmaj, hmin]

/-- The loop of octant 7 from step `k` on, with the minor offset `j` the ideal
one and `d` the error term of the midpoint test, when the line fits (no
result overflows): it plots the ideal pixels `k, ..., D-1` and exits at the
endpoint. -/
theorem octant7_while_closed (x0 y0 D E : Int) (hD : 0 < D) (hE : 0 ≤ E) (hED : E ≤ D)
    (hDs : D < 1073741824) (hM0 : is_int (y0)) (hM1 : is_int (y0 - D))
    (hm0 : is_int (x0)) (hm1 : is_int (x0 + E)) :
    ∀ (n k fuel : Nat) (j x1 A B x y d : Int), n ≤ fuel → (k : Int) + n = D →
    x1 = y0 - D → A = -2 * D → B = -2 * E → y = y0 - k → x = x0 + j →
    d = -D + 2 * E * (k + 1) - 2 * D * j →
    2 * D * (j - 1) < 2 * k * E - D → 2 * k * E - D ≤ 2 * D * j →
    (octant7_while fuel x1 A B x y d).plots =
      (List.range' k n).map (fun (i : Nat) => (x0 + ideal_minor i D E, y0 - (i : Int))) ∧
    (octant7_while fuel x1 A B x y d).x = x0 + E ∧
    (octant7_while fuel x1 A B x y d).y = y0 - D := by
  unfold is_int at hM0 hM1 hm0 hm1
  intro n
  induction n with
  | zero =>
    intro k fuel j x1 A B x y d _ hk hx1 hA hB hmaj hmin hd h1 h2
    have hc : ¬ (y > x1) := by omega
    have hj : j = E := by
      have hkD : (k : Int) = D := by omega
      rw [hkD] at h1 h2
      exact midpoint_last D E j hD h1 h2
    rw [octant7_while_exit fuel x1 A B x y d hc]
    simp only [List.range'_zero, List.map_nil, true_and]
    constructor <;> omega
  | succ n ih =>
    intro k fuel j x1 A B x y d hfuel hk hx1 hA hB hmaj hmin hd h1 h2
    obtain ⟨f, rfl⟩ : ∃ f, fuel = f + 1 := ⟨fuel - 1, by omega⟩
    have hc : y > x1 := by omega
    have hJ : ideal_minor k D E = j := (ideal_minor_eq_iff k D E j hD).2 ⟨h1, h2⟩
    obtain ⟨hjlo, hjhi, hdlo, hdhi, hyes, hno⟩ :=
      midpoint_step k D E j hD hE hED (Int.ofNat_nonneg k) (by omega) h1 h2
    have he : 2 * E * ((k : Int) + 1) - D - 2 * D * j = d := by
      linear_combination (-1 : Int) * hd
    rw [he] at hdlo hdhi hyes hno
    have he' : d = -D + 2 * E * (k + 1) - 2 * D * j := hd
    clear h1 h2 he hd
    have wmaj : wrap32 (y - 1) = y - 1 := wrap32_of_int (y - 1) (by omega) (by omega)
    rw [octant7_while]
    simp only [hc, if_true, List.range'_succ, List.map_cons, wmaj]
    by_cases hstep : d > 0
    · simp only [hstep, if_true]
      obtain ⟨hj1, hb1, hb2⟩ := hyes (by omega)
      have wmin : wrap32 (x + 1) = x + 1 := wrap32_of_int (x + 1) (by omega) (by omega)
      have wd1 : wrap32 (d + A) = d + A := wrap32_of_int (d + A) (by omega) (by omega)
      have wd2 : wrap32 (d + A - B) = d + A - B := wrap32_of_int (d + A - B) (by omega) (by omega)
      simp only [wmin, wd1, wd2]
      obtain ⟨a, b, c⟩ := ih (k + 1) f (j + 1) x1 A B (x + 1) (y - 1) (d + A - B)
        (by omega) (by push_cast; omega) hx1 hA hB (by push_cast; omega) (by omega)
        (by push_cast; simp only [hA, hB]; linear_combination (1 : Int) * he')
        (by push_cast; exact hb1)
        (by push_cast; exact hb2)
      refine ⟨?_, b, c⟩
      rw [a, hJ, hmaj, hmin]
    · simp only [hstep, if_false]
      obtain ⟨hb1, hb2⟩ := hno (by omega)
      have wd0 : wrap32 (d - B) = d - B := wrap32_of_int (d - B) (by omega) (by omega)
      simp only [wd0]
      obtain ⟨a, b, c⟩ := ih (k + 1) f j x1 A B x (y - 1) (d - B)
        (by omega) (by push_cast; omega) hx1 hA hB (by push_cast; omega) (by omega)
        (by push_cast; simp only [hA, hB]; linear_combination (1 : Int) * he')
        (by push_cast; exact hb1)
        (by push_cast; exact hb2)
      refine ⟨?_, b, c⟩
      rw [a, hJ, hmaj, hmin]

theorem map_range_snoc {β : Type} (f : Nat → β) (n : Nat) :
    (List.range' 0 n).map f ++ [f n] = (List.range (n + 1)).map f := by
  rw [List.range_succ, List.map_append, List.range_eq_range']
  rfl

theorem sign_mul_ideal_of_nonpos (dy J : Int) (hdy : dy ≤ 0) (hJ : dy = 0 → J = 0) (y0 : Int) :
    y0 - J = y0 + Int.sign dy * J := by
  rcases lt_or_eq_of_le hdy with h | h
  · rw [Int.sign_eq_neg_one_of_neg h]
    ring
  · rw [hJ h, h]
    simp

/-- A pixel whose major coordinate is the endpoint's is not among the pixels
`0, ..., n-1` of a loop. -/
theorem not_mem_map_range' (n : Nat) (f : Nat → Int × Int) (p : Int × Int)
    (h : ∀ i : Nat, i < n → f i ≠ p) : p ∉ (List.range' 0 n).map f := by
  intro hm
  rw [List.mem_map] at hm
  obtain ⟨i, hi, heq⟩ := hm
  rw [List.mem_range'_1] at hi
  exact h i (by omega) heq

set_option maxHeartbeats 1600000 in
/-- The loop of `draw_line` on endpoints with `x0 ≤ x1`, here `(x0, y0)` and
`(x0 + D, y0 + dy)`, when the line fits: followed by the final plot it gives the
reference pixels, it exits with `x`, `y` at the second endpoint, and it does
not plot that endpoint. -/
theorem draw_line_loop_closed (x0 y0 D dy : Int) (hD : 0 ≤ D)
    (hfit : line_fits x0 y0 (x0 + D) (y0 + dy)) :
    (draw_line_loop x0 y0 (x0 + D) (y0 + dy)).plots ++ [(x0 + D, y0 + dy)] =
      bresenham_norm x0 y0 (x0 + D) (y0 + dy) ∧
    (draw_line_loop x0 y0 (x0 + D) (y0 + dy)).x = x0 + D ∧
    (draw_line_loop x0 y0 (x0 + D) (y0 + dy)).y = y0 + dy ∧
    (x0 + D, y0 + dy) ∉ (draw_line_loop x0 y0 (x0 + D) (y0 + dy)).plots := by
  obtain ⟨ix0, iy0, ix1, iy1, hfx, hfy⟩ := hfit
  rw [add_sub_cancel_left] at hfx hfy
  have hns : ¬ (x0 > x0 + D) := by omega
  have habs := abs_cases dy
  have hDabs : |D| = D := abs_of_nonneg hD
  rw [hDabs] at hfx
  have ix0' := ix0
  have iy0' := iy0
  have ix1' := ix1
  have iy1' := iy1
  unfold is_int at ix0' iy0' ix1' iy1'
  have w1 : wrap32 D = D := wrap32_of_int D (by omega) (by omega)
  have w2 : wrap32 dy = dy := wrap32_of_int dy (by omega) (by omega)
  have w3 : wrap32 (2 * dy) = 2 * dy := wrap32_of_int (2 * dy) (by omega) (by omega)
  have w4 : wrap32 (-2 * D) = -2 * D := wrap32_of_int (-2 * D) (by omega) (by omega)
  have w5 : wrap32 |dy| = |dy| := wrap32_of_int |dy| (by omega) (by omega)
  have hfuel : ∀ m : Int, m < 1073741824 → m.toNat ≤ loop_fuel := by
    intro m hm
    unfold loop_fuel
    omega
  unfold draw_line_loop bresenham_norm swap_points
  simp only [hns, if_false, add_sub_cancel_left, w1, w2, w3, w4, w5, hDabs]
  by_cases hmajor : D ≥ |dy|
  · rw [if_pos hmajor, if_pos hmajor]
    by_cases hA : 2 * dy > 0
    · -- octant 1
      rw [if_pos hA]
      have hdy : 0 < dy := by omega
      have hDpos : 0 < D := by omega
      have hE : |dy| = dy := abs_of_pos hdy
      have wd : wrap32 (2 * dy + (-2 * D).tdiv 2) = 2 * dy + -D := by
        rw [tdiv_neg_two_mul]
        exact wrap32_of_int _ (by omega) (by omega)
      obtain ⟨a, b, c⟩ := octant1_while_closed x0 y0 D dy hDpos hdy.le (by omega) hfx
        ix0 ix1 iy0 iy1 D.toNat 0 loop_fuel 0
        (x0 + D) (2 * dy) (-2 * D) x0 y0 (wrap32 (2 * dy + (-2 * D).tdiv 2))
        (hfuel D hfx) (by push_cast; omega)
        rfl rfl rfl (by simp) (by simp) (by rw [wd]; push_cast; ring)
        (by push_cast; nlinarith) (by push_cast; nlinarith)
      refine ⟨?_, b, c, ?_⟩
      · rw [a, ← map_range_snoc, hE, Int.sign_eq_one_of_pos hdy, Int.toNat_of_nonneg hD,
          ideal_minor_last D dy hDpos]
        simp
      · rw [a]
        apply not_mem_map_range'
        intro i hi heq
        have := congrArg Prod.fst heq
        simp only at this
        omega
    · -- octant 8
      rw [if_neg hA]
      have hdy : dy ≤ 0 := by omega
      have hE : |dy| = -dy := abs_of_nonpos hdy
      by_cases hD0 : D = 0
      · have hdy0 : dy = 0 := by omega
        subst hD0 hdy0
        rw [octant8_while_exit _ _ _ _ _ _ _ (by omega)]
        simp [List.range_succ]
      · have hDpos : 0 < D := by omega
        have wd : wrap32 (2 * dy - (-2 * D).tdiv 2) = 2 * dy + D := by
          rw [tdiv_neg_two_mul, sub_neg_eq_add]
          exact wrap32_of_int _ (by omega) (by omega)
        have iy1e : is_int (y0 - -dy) := by rw [sub_neg_eq_add]; exact iy1
        obtain ⟨a, b, c⟩ := octant8_while_closed x0 y0 D (-dy) hDpos (by omega) (by omega) hfx
          ix0 ix1 iy0 iy1e
          D.toNat 0 loop_fuel 0 (x0 + D) (2 * dy) (-2 * D) x0 y0
          (wrap32 (2 * dy - (-2 * D).tdiv 2))
          (hfuel D hfx) (by push_cast; omega) rfl (by ring) rfl (by simp) (by simp)
          (by rw [wd]; push_cast; ring)
          (by push_cast; nlinarith) (by push_cast; nlinarith)
        refine ⟨?_, b, by rw [c]; ring, ?_⟩
        · rw [a, ← map_range_snoc, hE, Int.toNat_of_nonneg hD, ideal_minor_last D (-dy) hDpos]
          congr 1
          · apply List.map_congr_left
            intro k _
            rw [sign_mul_ideal_of_nonpos dy _ hdy
              (fun h => by rw [h, neg_zero]; exact ideal_minor_flat _ D hDpos) y0]
          · rw [← sign_mul_ideal_of_nonpos dy (-dy) hdy (fun h => by rw [h, neg_zero]) y0]
            simp
        · rw [a]
          apply not_mem_map_range'
          intro i hi heq
          have := congrArg Prod.fst heq
          simp only at this
          omega
  · rw [if_neg hmajor, if_neg hmajor]
    have hlt : D < |dy| := by omega
    by_cases hA : 2 * dy > 0
    · -- octant 2
      rw [if_pos hA]
      have hdy : 0 < dy := by omega
      have hE : |dy| = dy := abs_of_pos hdy
      rw [hE] at hfy
      have wd : wrap32 ((2 * dy).tdiv 2 + -2 * D) = dy + -2 * D := by
        rw [tdiv_two_mul]
        exact wrap32_of_int _ (by omega) (by omega)
      obtain ⟨a, b, c⟩ := octant2_while_closed x0 y0 dy D hdy hD (by omega) hfy
        iy0 iy1 ix0 ix1 dy.toNat 0 loop_fuel 0
        (y0 + dy) (2 * dy) (-2 * D) x0 y0 (wrap32 ((2 * dy).tdiv 2 + -2 * D))
        (hfuel dy hfy) (by push_cast; omega)
        rfl rfl rfl (by simp) (by simp) (by rw [wd]; push_cast; ring)
        (by push_cast; nlinarith) (by push_cast; nlinarith)
      refine ⟨?_, b, c, ?_⟩
      · rw [a, ← map_range_snoc, hE, Int.sign_eq_one_of_pos hdy, Int.toNat_of_nonneg hdy.le,
          ideal_minor_last dy D hdy]
        simp
      · rw [a]
        apply not_mem_map_range'
        intro i hi heq
        have := congrArg Prod.snd heq
        simp only at this
        omega
    · -- octant 7
      rw [if_neg hA]
      have hdy : dy < 0 := by omega
      have hE : |dy| = -dy := abs_of_neg hdy
      rw [hE] at hfy
      have wd : wrap32 ((2 * dy).tdiv 2 - -2 * D) = dy + 2 * D := by
        rw [tdiv_two_mul]
        have e : dy - -2 * D = dy + 2 * D := by ring
        rw [e]
        exact wrap32_of_int _ (by omega) (by omega)
      have iy1e : is_int (y0 - -dy) := by rw [sub_neg_eq_add]; exact iy1
      obtain ⟨a, b, c⟩ := octant7_while_closed x0 y0 (-dy) D (by omega) hD (by omega) hfy
        iy0 iy1e ix0 ix1
        (-dy).toNat 0 loop_fuel 0 (y0 + dy) (2 * dy) (-2 * D) x0 y0
        (wrap32 ((2 * dy).tdiv 2 - -2 * D))
        (hfuel (-dy) hfy) (by push_cast; omega) (by ring) (by ring) rfl (by simp) (by simp)
        (by rw [wd]; push_cast; ring)
        (by push_cast; nlinarith) (by push_cast; nlinarith)
      refine ⟨?_, b, by rw [c]; ring, ?_⟩
      · rw [a, ← map_range_snoc, hE, Int.sign_eq_neg_one_of_neg hdy,
          Int.toNat_of_nonneg (by omega : 0 ≤ -dy), ideal_minor_last (-dy) D (by omega)]
        congr 1
        · apply List.map_congr_left
          intro k _
          simp only [Prod.mk.injEq, true_and]
          ring
        · simp
      · rw [a]
        apply not_mem_map_range'
        intro i hi heq
        have := congrArg Prod.snd heq
        simp only at this
        omega

theorem line_fits_swap (x0 y0 x1 y1 : Int) (h : line_fits x0 y0 x1 y1) :
    line_fits x1 y1 x0 y0 := by
  obtain ⟨a, b, c, d, e, f⟩ := h
  exact ⟨c, d, a, b, by rw [abs_sub_comm]; exact e, by rw [abs_sub_comm]; exact f⟩

/-- The trace of `draw_line` on endpoints with `x0 ≤ x1`, when the line fits,
is the reference one. -/
theorem draw_line_of_le (x0 y0 x1 y1 : Int) (h : x0 ≤ x1) (hfit : line_fits x0 y0 x1 y1) :
    draw_line x0 y0 x1 y1 = bresenham_norm x0 y0 x1 y1 := by
  have e1 : x0 + (x1 - x0) = x1 := by ring
  have e2 : y0 + (y1 - y0) = y1 := by ring
  have hfit' : line_fits x0 y0 (x0 + (x1 - x0)) (y0 + (y1 - y0)) := by
    rw [e1, e2]
    exact hfit
  have := (draw_line_loop_closed x0 y0 (x1 - x0) (y1 - y0) (by omega) hfit').1
  rw [e1, e2] at this
  rw [← this, draw_line_eq_loop]
  simp [swap_points, not_lt.2 h]

/-- Every call of `draw_line` on a line that fits is the call on its endpoints
after the swap, `(a, b)` and `(a + D, b + dy)` with `D ≥ 0`, and its trace is
the reference one for them. -/
theorem draw_line_normal_form (x0 y0 x1 y1 : Int) (hfit : line_fits x0 y0 x1 y1) :
    ∃ a b D dy : Int, 0 ≤ D ∧ line_fits a b (a + D) (b + dy) ∧
      swap_points x0 y0 x1 y1 = ((a, b), (a + D, b + dy)) ∧
      ((x0 ≤ x1 ∧ a = x0 ∧ b = y0 ∧ D = x1 - x0 ∧ dy = y1 - y0) ∨
        (x1 < x0 ∧ a = x1 ∧ b = y1 ∧ D = x0 - x1 ∧ dy = y0 - y1)) ∧
      draw_line x0 y0 x1 y1 = bresenham_norm a b (a + D) (b + dy) ∧
      draw_line_loop x0 y0 x1 y1 = draw_line_loop a b (a + D) (b + dy) := by
  by_cases h : x0 ≤ x1
  · have e1 : x0 + (x1 - x0) = x1 := by ring
    have e2 : y0 + (y1 - y0) = y1 := by ring
    refine ⟨x0, y0, x1 - x0, y1 - y0, by omega, ?_, ?_, Or.inl ⟨h, rfl, rfl, rfl, rfl⟩, ?_, ?_⟩
    · rw [e1, e2]
      exact hfit
    · simp [swap_points, not_lt.2 h]
    · rw [e1, e2]
      exact draw_line_of_le x0 y0 x1 y1 h hfit
    · rw [e1, e2]
  · have hlt : x1 < x0 := not_le.1 h
    have e1 : x1 + (x0 - x1) = x0 := by ring
    have e2 : y1 + (y0 - y1) = y0 := by ring
    refine ⟨x1, y1, x0 - x1, y0 - y1, by omega, ?_, ?_, Or.inr ⟨hlt, rfl, rfl, rfl, rfl⟩, ?_, ?_⟩
    · rw [e1, e2]
      exact line_fits_swap x0 y0 x1 y1 hfit
    · simp [swap_points, hlt]
    · rw [e1, e2, draw_line_swap_of_ne x0 y0 x1 y1 (by omega)]
      exact draw_line_of_le x1 y1 x0 y0 hlt.le (line_fits_swap x0 y0 x1 y1 hfit)
    · rw [e1, e2]
      exact draw_line_loop_swap_of_ne x0 y0 x1 y1 (by omega)

theorem bresenham_norm_length (a b D dy : Int) (hD : 0 ≤ D) :
    ((bresenham_norm a b (a + D) (b + dy)).length : Int) = max D |dy| + 1 := by
  have habs := abs_cases dy
  unfold bresenham_norm
  simp only [add_sub_cancel_left]
  by_cases h : D ≥ |dy|
  · rw [if_pos h, List.length_map, List.length_range, max_eq_left h]
    push_cast
    rw [Int.toNat_of_nonneg hD]
  · rw [if_neg h, List.length_map, List.length_range, max_eq_right (by omega)]
    push_cast
    rw [Int.toNat_of_nonneg (abs_nonneg dy)]

theorem bresenham_norm_head (a b D dy : Int) (hD : 0 ≤ D) :
    (bresenham_norm a b (a + D) (b + dy)).head? = some (a, b) := by
  have habs := abs_cases dy
  unfold bresenham_norm
  simp only [add_sub_cancel_left]
  by_cases h : D ≥ |dy|
  · rw [if_pos h, List.range_succ_eq_map, List.map_cons, List.head?_cons]
    simp only [Nat.cast_zero, add_zero]
    by_cases hD0 : D = 0
    · have hdy0 : dy = 0 := by omega
      subst hD0 hdy0
      simp
    · rw [ideal_minor_zero D |dy| (by omega)]
      simp
  · rw [if_neg h, List.range_succ_eq_map, List.map_cons, List.head?_cons]
    simp only [Nat.cast_zero, add_zero]
    rw [ideal_minor_zero |dy| D (by omega)]
    simp

theorem octant1_while_step (fuel : Nat) (x1 A B x y d : Int) (hf : 0 < fuel) (h : x < x1) :
    (octant1_while fuel x1 A B x y d).plots = (x, y) ::
      (octant1_while (fuel - 1) x1 A B (wrap32 (x + 1)) (if d > 0 then wrap32 (y + 1) else y)
        (wrap32 ((if d > 0 then wrap32 (d + B) else d) + A))).plots := by
  cases fuel with
  | zero => omega
  | succ n => simp [octant1_while, h]

/-- The call that overflows: for the vertical line from `(0, 0)` to `(0, 2^30)`
the doubled difference `2 * (y1 - y0)` wraps to `-2^31`, the branch of octant 7
is taken, its loop runs no iteration and the final plot is the only one. -/
theorem draw_line_steep_overflow : draw_line 0 0 0 1073741824 = [(0, 1073741824)] := by
  decide

theorem line_fits_example : line_fits 0 0 5 2 := by
  unfold line_fits is_int
  norm_num

theorem line_fits_example_swapped : line_fits 5 2 0 0 := by
  unfold line_fits is_int
  norm_num

/-- C1 (amended): for `int` endpoints whose differences `dx = x1 - x0` and
`dy = y1 - y0` are below `2^30` in absolute value, `draw_line` calls `plot`
exactly `|dx| + 1` times when `|dx| ≥ |dy|` and exactly `|dy| + 1` times when
`|dy| > |dx|`, that is `max(|dx|, |dy|) + 1` times, in every octant and for
either order of the endpoints. -/
theorem draw_line_length (x0 y0 x1 y1 : Int) (hfit : line_fits x0 y0 x1 y1) :
    ((draw_line x0 y0 x1 y1).length : Int) =
        (if |x1 - x0| ≥ |y1 - y0| then |x1 - x0| + 1 else |y1 - y0| + 1) ∧
      ((draw_line x0 y0 x1 y1).length : Int) = max |x1 - x0| |y1 - y0| + 1 ∧
      (draw_line x1 y1 x0 y0).length = (draw_line x0 y0 x1 y1).length := by
  have key : ∀ a b c d : Int, line_fits a b c d →
      ((draw_line a b c d).length : Int) = max |c - a| |d - b| + 1 := by
    intro a b c d hf
    obtain ⟨u, v, D, dy, hD, _, _, hcase, hdraw, _⟩ := draw_line_normal_form a b c d hf
    rw [hdraw, bresenham_norm_length u v D dy hD]
    rcases hcase with ⟨_, _, _, rfl, rfl⟩ | ⟨_, _, _, rfl, rfl⟩
    · rw [abs_of_nonneg hD]
    · rw [abs_sub_comm c a, abs_sub_comm d b, abs_of_nonneg hD]
  have h := key x0 y0 x1 y1 hfit
  have h' := key x1 y1 x0 y0 (line_fits_swap x0 y0 x1 y1 hfit)
  rw [abs_sub_comm x0 x1, abs_sub_comm y0 y1] at h'
  refine ⟨?_, h, by omega⟩
  split_ifs with hc
  · rw [h, max_eq_left hc]
  · rw [h, max_eq_right (le_of_lt (not_le.1 hc))]

/-- The line from `(0, 0)` to `(5, 2)` fits and is plotted with `max(5, 2) + 1`
pixels, in either order of its endpoints. -/
theorem draw_line_length_witness :
    line_fits 0 0 5 2 ∧
    ((draw_line 0 0 5 2).length : Int) = max |(5 : Int) - 0| |(2 : Int) - 0| + 1 ∧
    (draw_line 5 2 0 0).length = (draw_line 0 0 5 2).length :=
  ⟨line_fits_example, (draw_line_length 0 0 5 2 line_fits_example).2⟩

/-- C1 as stated fails: the endpoints `(0, 0)` and `(0, 2^30)` are `int`s with
`max(|dx|, |dy|) + 1 = 2^30 + 1`, and `draw_line` plots one pixel. -/
theorem draw_line_length_overflow :
    is_int 0 ∧ is_int 1073741824 ∧ (draw_line 0 0 0 1073741824).length = 1 ∧
    ¬ (((draw_line 0 0 0 1073741824).length : Int) =
      max |(0 : Int) - 0| |(1073741824 : Int) - 0| + 1) := by
  rw [draw_line_steep_overflow]
  unfold is_int
  norm_num

/-- C3 (amended): for `int` endpoints whose differences are below `2^30` in
absolute value, `draw_line` plots both endpoints: the first plot is the
endpoint with the smaller `x` (the first-given one when `x0 ≤ x1`), the last
plot is the other endpoint, made by the call after the loop, and the loop never
plots that endpoint. -/
theorem draw_line_endpoints (x0 y0 x1 y1 : Int) (hfit : line_fits x0 y0 x1 y1) :
    (draw_line x0 y0 x1 y1).head? = some (if x0 ≤ x1 then (x0, y0) else (x1, y1)) ∧
    (draw_line x0 y0 x1 y1).getLast? = some (if x0 ≤ x1 then (x1, y1) else (x0, y0)) ∧
    draw_line x0 y0 x1 y1 =
      (draw_line_loop x0 y0 x1 y1).plots ++ [if x0 ≤ x1 then (x1, y1) else (x0, y0)] ∧
    (if x0 ≤ x1 then (x1, y1) else (x0, y0)) ∉ (draw_line_loop x0 y0 x1 y1).plots ∧
    (x0, y0) ∈ draw_line x0 y0 x1 y1 ∧ (x1, y1) ∈ draw_line x0 y0 x1 y1 := by
  obtain ⟨a, b, D, dy, hD, hfit', hsw, hcase, hdraw, hloop⟩ :=
    draw_line_normal_form x0 y0 x1 y1 hfit
  obtain ⟨_, _, _, hnot⟩ := draw_line_loop_closed a b D dy hD hfit'
  have hfst : (if x0 ≤ x1 then (x0, y0) else (x1, y1)) = (a, b) := by
    rcases hcase with ⟨h, rfl, rfl, _, _⟩ | ⟨h, rfl, rfl, _, _⟩
    · rw [if_pos h]
    · rw [if_neg (not_le.2 h)]
  have hsnd : (if x0 ≤ x1 then (x1, y1) else (x0, y0)) = (a + D, b + dy) := by
    rcases hcase with ⟨h, rfl, rfl, rfl, rfl⟩ | ⟨h, rfl, rfl, rfl, rfl⟩
    · rw [if_pos h]
      congr 1 <;> ring
    · rw [if_neg (not_le.2 h)]
      congr 1 <;> ring
  have heq := draw_line_eq_loop x0 y0 x1 y1
  rw [hsw] at heq
  simp only at heq
  have h1 : (draw_line x0 y0 x1 y1).head? = some (a, b) := by
    rw [hdraw]
    exact bresenham_norm_head a b D dy hD
  have h2 : (draw_line x0 y0 x1 y1).getLast? = some (a + D, b + dy) := by
    rw [heq]
    simp
  rw [hfst, hsnd]
  refine ⟨h1, h2, heq, by rw [hloop]; exact hnot, ?_, ?_⟩
  · rcases hcase with ⟨h, ha, hb, _, _⟩ | ⟨h, ha, hb, hD', hdy'⟩
    · rw [ha, hb] at h1
      exact List.mem_of_mem_head? h1
    · have e : (a + D, b + dy) = (x0, y0) := by
        rw [ha, hb, hD', hdy']
        congr 1 <;> ring
      rw [e] at h2
      exact List.mem_of_mem_getLast? h2
  · rcases hcase with ⟨h, ha, hb, hD', hdy'⟩ | ⟨h, ha, hb, _, _⟩
    · have e : (a + D, b + dy) = (x1, y1) := by
        rw [ha, hb, hD', hdy']
        congr 1 <;> ring
      rw [e] at h2
      exact List.mem_of_mem_getLast? h2
    · rw [ha, hb] at h1
      exact List.mem_of_mem_head? h1

/-- The line given from `(5, 2)` to `(0, 0)`: the first plot is `(0, 0)`, the
last one `(5, 2)`. -/
theorem draw_line_endpoints_witness :
    line_fits 5 2 0 0 ∧ (draw_line 5 2 0 0).head? = some (0, 0) ∧
    (draw_line 5 2 0 0).getLast? = some (5, 2) ∧
    (5, 2) ∉ (draw_line_loop 5 2 0 0).plots := by
  obtain ⟨h1, h2, _, h4, _⟩ := draw_line_endpoints 5 2 0 0 line_fits_example_swapped
  exact ⟨line_fits_example_swapped, by simpa using h1, by simpa using h2, by simpa using h4⟩

/-- C3 as stated fails: on the `int` endpoints `(0, 0)` and `(0, 2^30)` the
first plot is not `(0, 0)`, which is not plotted at all. -/
theorem draw_line_endpoints_overflow :
    (draw_line 0 0 0 1073741824).head? ≠ some (0, 0) ∧
    (0, 0) ∉ draw_line 0 0 0 1073741824 := by
  rw [draw_line_steep_overflow]
  decide

/-- C16 (amended): for `int` endpoints whose differences are below `2^30` in
absolute value, `draw_line` plots exactly the pixels of the integer midpoint
reference, in the same order, in every octant: after the swap that makes
`x0 ≤ x1` the major axis advances by 1 per plot and the minor coordinate is the
ideal line value rounded to nearest, an exact half resolved toward the start
point. -/
theorem draw_line_eq_bresenham_ref (x0 y0 x1 y1 : Int) (hfit : line_fits x0 y0 x1 y1) :
    draw_line x0 y0 x1 y1 = bresenham_ref x0 y0 x1 y1 := by
  obtain ⟨a, b, D, dy, _, _, _, hcase, hdraw, _⟩ := draw_line_normal_form x0 y0 x1 y1 hfit
  rw [hdraw]
  unfold bresenham_ref
  rcases hcase with ⟨h, rfl, rfl, rfl, rfl⟩ | ⟨h, rfl, rfl, rfl, rfl⟩
  · rw [if_pos h]
    congr 1 <;> ring
  · rw [if_neg (not_le.2 h)]
    congr 1 <;> ring

/-- The line from `(0, 0)` to `(5, 2)`: its six pixels are those of the
reference. -/
theorem draw_line_eq_bresenham_ref_witness :
    line_fits 0 0 5 2 ∧
    bresenham_ref 0 0 5 2 = [(0, 0), (1, 0), (2, 1), (3, 1), (4, 2), (5, 2)] := by
  refine ⟨line_fits_example, ?_⟩
  rw [← draw_line_eq_bresenham_ref 0 0 5 2 line_fits_example]
  decide

/-- C16 as stated fails: on the `int` endpoints `(0, 0)` and `(0, 2^30)` the
reference has `2^30 + 1` pixels and `draw_line` plots one. -/
theorem draw_line_ne_bresenham_ref_overflow :
    (bresenham_ref 0 0 0 1073741824).length = 1073741825 ∧
    (draw_line 0 0 0 1073741824).length = 1 ∧
    draw_line 0 0 0 1073741824 ≠ bresenham_ref 0 0 0 1073741824 := by
  have hlen : (bresenham_ref 0 0 0 1073741824).length = 1073741825 := by
    unfold bresenham_ref bresenham_norm
    norm_num
    rfl
  refine ⟨hlen, by rw [draw_line_steep_overflow]; rfl, ?_⟩
  intro h
  have := congrArg List.length h
  rw [hlen, draw_line_steep_overflow] at this
  simp at this

/-- Consecutive reference pixels: the major coordinate advances by 1, the minor
one by 0 or by one unit in the direction of the line. -/
theorem bresenham_norm_chain (a b D dy : Int) (hD : 0 ≤ D) :
    (D ≥ |dy| → List.Chain'
      (fun p q : Int × Int => q.1 = p.1 + 1 ∧ (q.2 = p.2 ∨ q.2 = p.2 + Int.sign dy))
      (bresenham_norm a b (a + D) (b + dy))) ∧
    (¬ D ≥ |dy| → List.Chain'
      (fun p q : Int × Int => q.2 = p.2 + Int.sign dy ∧ (q.1 = p.1 ∨ q.1 = p.1 + 1))
      (bresenham_norm a b (a + D) (b + dy))) := by
  have habs := abs_cases dy
  unfold bresenham_norm
  simp only [add_sub_cancel_left]
  constructor
  · intro h
    rw [if_pos h, List.chain'_map, List.chain'_range_succ]
    intro m hm
    have hDpos : 0 < D := by omega
    refine ⟨by push_cast; ring, ?_⟩
    have hst := ideal_minor_step m D |dy| hDpos (abs_nonneg dy) h
    simp only [Nat.succ_eq_add_one, Nat.cast_add, Nat.cast_one]
    rcases hst with e | e
    · left
      rw [e]
    · right
      rw [e]
      rcases lt_trichotomy dy 0 with hneg | hzero | hpos
      · rw [Int.sign_eq_neg_one_of_neg hneg]
        ring
      · rw [hzero]
        simp
      · rw [Int.sign_eq_one_of_pos hpos]
        ring
  · intro h
    rw [if_neg h, List.chain'_map, List.chain'_range_succ]
    intro m hm
    have hMpos : 0 < |dy| := by omega
    have hst := ideal_minor_step m |dy| D hMpos hD (by omega)
    simp only [Nat.succ_eq_add_one, Nat.cast_add, Nat.cast_one]
    refine ⟨by ring, ?_⟩
    rcases hst with e | e
    · left
      rw [e]
    · right
      rw [e]
      ring


/-- C18 (amended): for `int` endpoints whose differences are below `2^30` in
absolute value, the trace of `draw_line` is gap-free: any two consecutive
plots, the last plot of the loop and the final plot of the endpoint included,
differ by exactly 1 on the major axis and by 0 or one unit in the direction of
the line on the minor axis; and the loop exits with `x` and `y` at the
endpoint, so the tracked minor coordinate has reached the endpoint's. -/
theorem draw_line_gap_free (x0 y0 x1 y1 : Int) (hfit : line_fits x0 y0 x1 y1) :
    (if |x1 - x0| ≥ |y1 - y0| then
      List.Chain' (fun p q : Int × Int => q.1 = p.1 + 1 ∧ (q.2 = p.2 ∨ q.2 = p.2 +
          Int.sign ((swap_points x0 y0 x1 y1).2.2 - (swap_points x0 y0 x1 y1).1.2)))
        (draw_line x0 y0 x1 y1)
    else
      List.Chain' (fun p q : Int × Int => q.2 = p.2 +
          Int.sign ((swap_points x0 y0 x1 y1).2.2 - (swap_points x0 y0 x1 y1).1.2) ∧
          (q.1 = p.1 ∨ q.1 = p.1 + 1))
        (draw_line x0 y0 x1 y1)) ∧
    (draw_line_loop x0 y0 x1 y1).x = (swap_points x0 y0 x1 y1).2.1 ∧
    (draw_line_loop x0 y0 x1 y1).y = (swap_points x0 y0 x1 y1).2.2 := by
  obtain ⟨a, b, D, dy, hD, hfit', hsw, hcase, hdraw, hloop⟩ :=
    draw_line_normal_form x0 y0 x1 y1 hfit
  obtain ⟨_, hx, hy, _⟩ := draw_line_loop_closed a b D dy hD hfit'
  obtain ⟨c1, c2⟩ := bresenham_norm_chain a b D dy hD
  rw [hsw, hdraw, hloop]
  simp only [add_sub_cancel_left]
  refine ⟨?_, hx, hy⟩
  have hiff : |x1 - x0| ≥ |y1 - y0| ↔ D ≥ |dy| := by
    have hDabs : |D| = D := abs_of_nonneg hD
    rcases hcase with ⟨_, _, _, rfl, rfl⟩ | ⟨_, _, _, rfl, rfl⟩
    · rw [hDabs]
    · rw [abs_sub_comm x1 x0, abs_sub_comm y1 y0, hDabs]
  by_cases h : |x1 - x0| ≥ |y1 - y0|
  · rw [if_pos h]
    exact c1 (hiff.1 h)
  · rw [if_neg h]
    exact c2 (fun h' => h (hiff.2 h'))

/-- The line from `(0, 0)` to `(5, 2)`: each plot is one column after the one
before it, on the same row or one row up, and the loop exits at `(5, 2)`. -/
theorem draw_line_gap_free_witness :
    line_fits 0 0 5 2 ∧
    List.Chain' (fun p q : Int × Int => q.1 = p.1 + 1 ∧ (q.2 = p.2 ∨ q.2 = p.2 + 1))
      (draw_line 0 0 5 2) ∧
    (draw_line_loop 0 0 5 2).x = 5 ∧ (draw_line_loop 0 0 5 2).y = 2 := by
  obtain ⟨h1, h2, h3⟩ := draw_line_gap_free 0 0 5 2 line_fits_example
  exact ⟨line_fits_example, by simpa [swap_points] using h1, by simpa [swap_points] using h2,
    by simpa [swap_points] using h3⟩

/-- C18 as stated fails: on the `int` endpoints `(-2^31, 0)` and `(2^31 - 1, 2)`
the difference `x1 - x0` wraps to `-1`; the loop of octant 2 plots two pixels of
the column `-2^31` and the final plot is `2^32 - 1` columns away. -/
theorem draw_line_gap_overflow :
    draw_line (-2147483648) 0 2147483647 2 =
      [(-2147483648, 0), (-2147483648, 1), (2147483647, 2)] ∧
    ¬ List.Chain' (fun p q : Int × Int => |q.1 - p.1| ≤ 1 ∧ |q.2 - p.2| ≤ 1)
      (draw_line (-2147483648) 0 2147483647 2) := by
  have h : draw_line (-2147483648) 0 2147483647 2 =
      [(-2147483648, 0), (-2147483648, 1), (2147483647, 2)] := by decide
  rw [h]
  refine ⟨rfl, ?_⟩
  simp [List.chain'_cons]

/-- Every reference pixel is within half a pixel of the ideal line, measured
along the minor axis. -/
theorem bresenham_norm_half_pixel (a b D dy : Int) (hD : 0 ≤ D) (p : Int × Int)
    (hp : p ∈ bresenham_norm a b (a + D) (b + dy)) :
    |2 * (D * (p.2 - b) - dy * (p.1 - a))| ≤ max |D| |dy| := by
  have habs := abs_cases dy
  have hDabs : |D| = D := abs_of_nonneg hD
  unfold bresenham_norm at hp
  simp only [add_sub_cancel_left] at hp
  by_cases h : D ≥ |dy|
  · rw [if_pos h, List.mem_map] at hp
    obtain ⟨k, _, rfl⟩ := hp
    rw [max_eq_left (by rw [hDabs]; exact h), hDabs]
    simp only [add_sub_cancel_left]
    by_cases hD0 : D = 0
    · have hdy0 : dy = 0 := by omega
      subst hD0 hdy0
      simp
    · have hDpos : 0 < D := by omega
      obtain ⟨b1, b2⟩ := ideal_minor_bounds k D |dy| hDpos
      rw [abs_le]
      rcases lt_trichotomy dy 0 with hneg | hzero | hpos
      · rw [Int.sign_eq_neg_one_of_neg hneg]
        rw [abs_of_neg hneg] at b1 b2 ⊢
        constructor <;> nlinarith
      · subst hzero
        simp only [Int.sign_zero, zero_mul, mul_zero, sub_zero, abs_zero] at b1 b2 ⊢
        constructor <;> omega
      · rw [Int.sign_eq_one_of_pos hpos]
        rw [abs_of_pos hpos] at b1 b2 ⊢
        constructor <;> nlinarith
  · rw [if_neg h, List.mem_map] at hp
    obtain ⟨k, _, rfl⟩ := hp
    have hlt : D < |dy| := not_le.1 h
    rw [max_eq_right (by rw [hDabs]; exact hlt.le)]
    simp only [add_sub_cancel_left]
    have hMpos : 0 < |dy| := by omega
    obtain ⟨b1, b2⟩ := ideal_minor_bounds k |dy| D hMpos
    rw [abs_le]
    rcases lt_trichotomy dy 0 with hneg | hzero | hpos
    · rw [Int.sign_eq_neg_one_of_neg hneg]
      rw [abs_of_neg hneg] at b1 b2 ⊢
      constructor <;> nlinarith
    · subst hzero
      simp at hMpos
    · rw [Int.sign_eq_one_of_pos hpos]
      rw [abs_of_pos hpos] at b1 b2 ⊢
      constructor <;> nlinarith


/-- C19 (amended): for `int` endpoints whose differences `dx`, `dy` are below
`2^30` in absolute value, every pixel `(x, y)` plotted by `draw_line` lies
within half a pixel of the ideal line, measured along the minor axis:
`|2*(dx*(y-y0) - dy*(x-x0))| ≤ max(|dx|, |dy|)`. -/
theorem draw_line_half_pixel (x0 y0 x1 y1 : Int) (hfit : line_fits x0 y0 x1 y1)
    (p : Int × Int) (hp : p ∈ draw_line x0 y0 x1 y1) :
    |2 * ((x1 - x0) * (p.2 - y0) - (y1 - y0) * (p.1 - x0))| ≤ max |x1 - x0| |y1 - y0| := by
  obtain ⟨a, b, D, dy, hD, _, _, hcase, hdraw, _⟩ := draw_line_normal_form x0 y0 x1 y1 hfit
  rw [hdraw] at hp
  have key := bresenham_norm_half_pixel a b D dy hD p hp
  rcases hcase with ⟨_, ha, hb, hD', hdy'⟩ | ⟨_, ha, hb, hD', hdy'⟩
  · rw [ha, hb, hD', hdy'] at key
    exact key
  · rw [ha, hb, hD', hdy'] at key
    rw [abs_sub_comm x1 x0, abs_sub_comm y1 y0]
    have e : 2 * ((x1 - x0) * (p.2 - y0) - (y1 - y0) * (p.1 - x0)) =
        -(2 * ((x0 - x1) * (p.2 - y1) - (y0 - y1) * (p.1 - x1))) := by ring
    rw [e, abs_neg]
    exact key

/-- The pixel `(2, 1)` of the line from `(0, 0)` to `(5, 2)`: it is plotted, and
its doubled deviation `|2 * (5 * 1 - 2 * 2)| = 2` is at most `5`. -/
theorem draw_line_half_pixel_witness :
    line_fits 0 0 5 2 ∧ (2, 1) ∈ draw_line 0 0 5 2 ∧
    |2 * (((5 : Int) - 0) * ((1 : Int) - 0) - ((2 : Int) - 0) * ((2 : Int) - 0))| ≤
      max |(5 : Int) - 0| |(2 : Int) - 0| := by
  have hmem : ((2 : Int), (1 : Int)) ∈ draw_line 0 0 5 2 := by decide
  exact ⟨line_fits_example, hmem, draw_line_half_pixel 0 0 5 2 line_fits_example (2, 1) hmem⟩

/-- C19 as stated fails: on the `int` endpoints `(0, 0)` and `(2^30 + 1, 1)` the
initial `d = A + B/2` is `2^30 + 1 > 0` (`B = -2 * dx` wraps to `2^31 - 2`), so
the second plot is `(1, 1)`, whose doubled deviation `2^31` exceeds
`max(|dx|, |dy|) = 2^30 + 1`. -/
theorem draw_line_half_pixel_overflow :
    (1, 1) ∈ draw_line 0 0 1073741825 1 ∧
    ¬ (|2 * (((1073741825 : Int) - 0) * ((1 : Int) - 0) - ((1 : Int) - 0) * ((1 : Int) - 0))| ≤
      max |(1073741825 : Int) - 0| |(1 : Int) - 0|) := by
  constructor
  · rw [draw_line_eq_loop]
    apply List.mem_append_left
    have h : ∃ l, (draw_line_loop 0 0 1073741825 1).plots = (0, 0) :: (1, 1) :: l := by
      have e : draw_line_loop 0 0 1073741825 1 =
          octant1_while loop_fuel 1073741825 2 2147483646 0 0 1073741825 := by
        have t : Int.tdiv 2147483646 2 = 1073741823 := by decide
        unfold draw_line_loop swap_points
        simp [wrap32, t]
      have a1 : wrap32 (0 + 1) = 1 := by decide
      have a2 : (if (1073741825 : Int) > 0 then (1 : Int) else 0) = 1 := by decide
      have a3 : wrap32 ((if (1073741825 : Int) > 0 then wrap32 (1073741825 + 2147483646)
          else 1073741825) + 2) = -1073741823 := by decide
      rw [e, octant1_while_step loop_fuel 1073741825 2 2147483646 0 0 1073741825 (by decide)
        (by decide), a1, a2, a3,
        octant1_while_step _ 1073741825 2 2147483646 1 1 (-1073741823) (by decide) (by decide)]
      exact ⟨_, rfl⟩
    obtain ⟨l, hl⟩ := h
    rw [hl]
    simp
  · norm_num

/-! ## The pairing of columns into edges -/

theorem add_edges_eq_add_points {α : Type} [One α] :
    ∀ (es : List ((α × α × α) × (α × α × α))) (M : matrix α),
    add_edges M es = add_points M (edge_points es) := by
  intro es
  induction es with
  | nil => intro M; rfl
  | cons e es ih =>
    intro M
    have happ : add_points M (e.1 :: e.2 :: edge_points es) =
        (add_points M [e.1, e.2]).bind (fun M1 => add_points M1 (edge_points es)) :=
      add_points_append M [e.1, e.2] (edge_points es)
    rw [edge_points_cons, happ]
    unfold add_edges
    rw [List.foldlM_cons, add_edge_eq_add_points]
    cases hE : add_points M [(e.1.1, e.1.2.1, e.1.2.2), (e.2.1, e.2.2.1, e.2.2.2)] with
    | none => rfl
    | some M1 => exact ih M1

theorem edge_points_append {β : Type} (es fs : List (β × β)) :
    edge_points (es ++ fs) = edge_points es ++ edge_points fs := by
  unfold edge_points
  exact List.flatMap_append es fs _

/-- The loop of `draw_lines` from segment `s` on, on a buffer whose columns
from `2s` on hold the endpoints of the edges `es` pairwise: one `draw_line` per
edge, in order. -/
theorem draw_lines_for_edges {α : Type} [One α] (trunc : α → Int) (M : matrix α) :
    ∀ (es : List ((α × α × α) × (α × α × α))) (s : Nat),
    M.lastcol = 2 * ((s + es.length : Nat) : Int) →
    (∀ (k : Nat) (e : (α × α × α) × (α × α × α)), es[k]? = some e →
      M.col (2 * ((s + k : Nat) : Int)) = some (homog e.1) ∧
      M.col (2 * ((s + k : Nat) : Int) + 1) = some (homog e.2)) →
    draw_lines_for trunc M (2 * (s : Int)) = some (draw_edges trunc es) := by
  intro es
  induction es with
  | nil =>
    intro s hl _
    have hc : ¬ (2 * (s : Int) < M.lastcol - 1) := by
      rw [hl]
      simp
    rw [draw_lines_for, if_neg hc]
    rfl
  | cons e es ih =>
    intro s hl hcol
    have hc : 2 * (s : Int) < M.lastcol - 1 := by
      rw [hl, List.length_cons]
      push_cast
      omega
    obtain ⟨h1, h2⟩ := hcol 0 e (by simp)
    simp only [Nat.add_zero] at h1 h2
    obtain ⟨a0, a1, _⟩ := matrix.read_of_col M _ _ _ _ _ h1
    obtain ⟨b0, b1, _⟩ := matrix.read_of_col M _ _ _ _ _ h2
    have hnext : 2 * (s : Int) + 2 = 2 * ((s + 1 : Nat) : Int) := by
      push_cast
      ring
    have hrec := ih (s + 1) (by
        rw [hl, List.length_cons]
        congr 2
        omega)
      (by
        intro k f hk
        have := hcol (k + 1) f (by simpa using hk)
        have e1 : s + (k + 1) = s + 1 + k := by omega
        rw [e1] at this
        exact this)
    rw [draw_lines_for, if_pos hc, a0, a1, b0, b1, hnext, hrec]
    rfl

/-- A sequence of `add_edge` calls on a fresh buffer of capacity `c`, and the
batch draw of the result. -/
theorem add_edges_fresh {α : Type} [One α] (trunc : α → Int) (c : Int) (hc : 0 ≤ c)
    (es : List ((α × α × α) × (α × α × α))) :
    ∃ M', add_edges (new_matrix 4 c) es = some M' ∧ M'.lastcol = 2 * (es.length : Int) ∧
      (∀ (i : Nat) (e : (α × α × α) × (α × α × α)), es[i]? = some e →
        M'.col (2 * (i : Int)) = some (homog e.1) ∧
        M'.col (2 * (i : Int) + 1) = some (homog e.2)) ∧
      (es ≠ [] → draw_lines trunc M' = some { printed := [], plots := draw_edges trunc es }) := by
  have hok : (new_matrix 4 c : matrix α).ok := ⟨le_refl _, le_refl _, hc⟩
  obtain ⟨M', h1, _, _, hl, hcol, _, _⟩ := add_points_spec (edge_points es) (new_matrix 4 c) hok
  have hl0 : (new_matrix 4 c : matrix α).lastcol = 0 := rfl
  have hlen : M'.lastcol = 2 * (es.length : Int) := by
    rw [hl, hl0, edge_points_length]
    push_cast
    ring
  have hcols : ∀ (i : Nat) (e : (α × α × α) × (α × α × α)), es[i]? = some e →
      M'.col (2 * (i : Int)) = some (homog e.1) ∧
      M'.col (2 * (i : Int) + 1) = some (homog e.2) := by
    intro i e hi
    obtain ⟨a, b⟩ := edge_points_get es i e hi
    have ha := hcol _ _ a
    have hb := hcol _ _ b
    rw [hl0, zero_add] at ha hb
    push_cast at ha hb
    exact ⟨ha, hb⟩
  refine ⟨M', ?_, hlen, hcols, ?_⟩
  · rw [add_edges_eq_add_points]
    exact h1
  · intro hne
    have hpos : 0 < es.length := List.length_pos.2 hne
    have hnot : ¬ M'.lastcol < 2 := by
      rw [hlen]
      omega
    have := draw_lines_for_edges trunc M' es 0 (by rw [hlen]; simp) (by
      intro k e hk
      have := hcols k e hk
      simpa using this)
    unfold draw_lines
    rw [if_neg hnot]
    simp only [Nat.cast_zero, mul_zero] at this
    rw [this]
    rfl

theorem edge_points_map {β γ : Type} (g : β → γ × γ) (l : List β) :
    edge_points (l.map g) = l.flatMap (fun e => [(g e).1, (g e).2]) := by
  induction l with
  | nil => rfl
  | cons a l ih =>
    rw [List.map_cons, edge_points_cons, ih, List.flatMap_cons]
    rfl

theorem loop_le_one_nil (step : Int) (h : step ≤ 0) : loop_le 1 step = [] := by
  unfold loop_le
  have : (step + 1 - 1).toNat = 0 := by omega
  rw [this]
  rfl

theorem loop_lt_zero_cons (n : Int) (h : 1 ≤ n) : ∃ rest, loop_lt 0 n = 0 :: rest := by
  unfold loop_lt
  have : (n - 0).toNat = (n.toNat - 1) + 1 := by omega
  rw [this, List.range_succ_eq_map, List.map_cons]
  exact ⟨List.map (fun (k : Nat) => (0 : Int) + (k : Int))
    (List.map Nat.succ (List.range (n.toNat - 1))), by simp⟩

/-- When `add_sphere` or `add_torus` returns a buffer, it is the edge buffer
with each generated point and its unit offset appended: `gen` is the result of
the generator, `pts` its `step * step` points. -/
theorem unit_edges_built {α : Type} [Field α] (gen : Option (matrix α))
    (pts : List (α × α × α)) (step : Int) (edges M' : matrix α)
    (hgen : gen = add_points (new_matrix (step * step) 4) pts)
    (hlen : pts.length = step.toNat * step.toNat)
    (h : (gen.bind fun points => (loop_lt 0 (step * step)).foldlM (fun edges i => do
        let x ← points.read 0 i
        let y ← points.read 1 i
        let z ← points.read 2 i
        add_edge edges x y z (x + 1) (y + 1) (z + 1)) edges) = some M') :
    add_points edges (unit_edges pts) = some M' := by
  rcases le_or_lt 2 step with h2 | h2
  · obtain ⟨P, hP, _, hPcol, _⟩ := grid_buffer_spec pts step h2 hlen
    rw [hgen, hP] at h
    simp only [Option.some_bind] at h
    have hsq : (step * step).toNat = pts.length := by
      rw [hlen]
      have h1 : ((step.toNat * step.toNat : Nat) : Int) = step * step := by
        push_cast
        rw [Int.toNat_of_nonneg (by omega)]
      have h0 : 0 ≤ step * step := by nlinarith
      omega
    have hrb := read_back_edges P pts hPcol pts.length 0 edges (by omega)
    rw [List.drop_zero, ← List.range_eq_range', ← hsq] at hrb
    unfold loop_lt at h
    rw [sub_zero] at h
    rw [← hrb]
    exact h
  · rcases lt_trichotomy step 1 with hlt | heq | hgt
    · -- no point is generated
      have hnil : pts = [] := by
        apply List.eq_nil_of_length_eq_zero
        rw [hlen]
        have : step.toNat = 0 := by omega
        rw [this]
      subst hnil
      rw [hgen] at h
      simp only [add_points_nil, Option.some_bind] at h
      by_cases h0 : step = 0
      · subst h0
        rw [loop_lt_zero_zero] at h
        exact h
      · have hneg : 0 ≤ -step - 1 := by omega
        have hpos : 1 ≤ step * step := by nlinarith [mul_nonneg hneg hneg]
        obtain ⟨rest, hrest⟩ := loop_lt_zero_cons (step * step) hpos
        rw [hrest, List.foldlM_cons] at h
        simp [matrix.read, new_matrix] at h
    · subst heq
      obtain ⟨p, hp⟩ : ∃ p, pts = [p] := by
        cases pts with
        | nil => simp at hlen
        | cons p ps =>
          cases ps with
          | nil => exact ⟨p, rfl⟩
          | cons q qs => simp at hlen
      subst hp
      rw [hgen, add_points_cons, show ((1 : Int) * 1) = 1 from rfl, add_point_one_row] at h
      simp at h
    · omega

theorem unit_edges_eq_edge_points {α : Type} [Add α] [One α] (pts : List (α × α × α)) :
    unit_edges pts = edge_points (pts.map (fun p => (p, (p.1 + 1, p.2.1 + 1, p.2.2 + 1)))) := by
  rw [edge_points_map]
  rfl

theorem matrix.holds_of_coefs {α : Type} (M : matrix α) (a b c d : α)
    (h0 : M.read 0 0 = some a) (h1 : M.read 1 0 = some b) (h2 : M.read 2 0 = some c)
    (h3 : M.read 3 0 = some d) : M.coefs = some (a, b, c, d) := by
  simp [matrix.coefs, h0, h1, h2, h3]

/-- When a call returns a buffer, it is the edge buffer with the endpoints of
the edges of the call appended, by `add_point` calls only. -/
theorem add_shape_built {α : Type} [Field α] (cos sin : α → α) (pi : α)
    (gcc : α → α → α → α → Int → matrix α) (M M' : matrix α) (sh : Shape α)
    (h : add_shape cos sin pi gcc M sh = some M') :
    add_points M (edge_points (shape_edges cos sin pi gcc sh)) = some M' := by
  cases sh with
  | edge x0 y0 z0 x1 y1 z1 =>
    rw [← h]
    simp only [add_shape, shape_edges, add_edge_eq_add_points]
    rfl
  | box x y z w hh d =>
    rw [← h]
    simp only [add_shape, shape_edges, add_box_eq_add_points, edge_points_map]
  | sphere cx cy cz r step =>
    simp only [shape_edges, ← unit_edges_eq_edge_points]
    exact unit_edges_built _ _ step M M' (generate_sphere_eq_add_points cos sin pi cx cy cz r step)
      (sphere_points_length cos sin pi cx cy cz r step) h
  | torus cx cy cz r R step =>
    simp only [shape_edges, ← unit_edges_eq_edge_points]
    exact unit_edges_built _ _ step M M'
      (generate_torus_eq_add_points cos sin pi cx cy cz r R step)
      (torus_points_length cos sin pi cx cy cz r R step) h
  | circle cx cy cz r step =>
    rw [← h]
    simp only [add_shape, shape_edges, add_circle_eq_add_points]
  | curve x0 y0 x1 y1 x2 y2 x3 y3 step type =>
    simp only [add_shape] at h
    cases hloop : loop_le 1 step with
    | nil =>
      have hM : M' = M := by
        unfold add_curve at h
        rw [hloop] at h
        exact (Option.some.inj h).symm
      have hnil : shape_edges cos sin pi gcc (Shape.curve x0 y0 x1 y1 x2 y2 x3 y3 step type)
          = [] := by
        simp only [shape_edges, hloop, List.map_nil, chain_edges]
        split <;> rfl
      rw [hnil, hM]
      rfl
    | cons i rest =>
      have h' := h
      unfold add_curve at h'
      rw [hloop, add_curve_for] at h'
      simp only [Option.bind_eq_bind, Option.bind_eq_some, Option.pure_def] at h'
      obtain ⟨xa, hxa, xb, hxb, xc, hxc, xd, hxd, ya, hya, yb, hyb, yc, hyc, yd, hyd, _⟩ := h'
      have hcx := matrix.holds_of_coefs _ _ _ _ _ hxa hxb hxc hxd
      have hcy := matrix.holds_of_coefs _ _ _ _ _ hya hyb hyc hyd
      rw [add_curve_eq_add_points gcc M x0 y0 x1 y1 x2 y2 x3 y3 step type xa xb xc xd
        ya yb yc yd ⟨hxa, hxb, hxc, hxd⟩ ⟨hya, hyb, hyc, hyd⟩] at h
      simp only [shape_edges, hcx, hcy]
      exact h

/-- When a mix of calls returns a buffer, it is the buffer the `add_edge` calls
for the edges of the calls, in order, return. -/
theorem add_shapes_built {α : Type} [Field α] (cos sin : α → α) (pi : α)
    (gcc : α → α → α → α → Int → matrix α) :
    ∀ (shapes : List (Shape α)) (M M' : matrix α),
    add_shapes cos sin pi gcc M shapes = some M' →
    add_edges M (shapes.flatMap (shape_edges cos sin pi gcc)) = some M' := by
  intro shapes
  induction shapes with
  | nil =>
    intro M M' h
    exact h
  | cons sh shapes ih =>
    intro M M' h
    unfold add_shapes at h
    rw [List.foldlM_cons] at h
    simp only [Option.bind_eq_bind, Option.bind_eq_some] at h
    obtain ⟨M1, h1, h2⟩ := h
    have a1 := add_shape_built cos sin pi gcc M M1 sh h1
    have a2 := ih M1 M' h2
    rw [add_edges_eq_add_points] at a2 ⊢
    rw [List.flatMap_cons, edge_points_append, add_points_append, a1]
    exact a2

theorem add_shapes_append {α : Type} [Field α] (cos sin : α → α) (pi : α)
    (gcc : α → α → α → α → Int → matrix α) (M : matrix α) (l1 l2 : List (Shape α)) :
    add_shapes cos sin pi gcc M (l1 ++ l2) =
      (add_shapes cos sin pi gcc M l1).bind (fun M1 => add_shapes cos sin pi gcc M1 l2) := by
  unfold add_shapes
  rw [List.foldlM_append]
  rfl

theorem add_sphere_step_zero {α : Type} [Field α] (cos sin : α → α) (pi cx cy cz r : α)
    (edges : matrix α) : add_sphere cos sin pi edges cx cy cz r 0 = some edges := by
  have hs : generate_sphere cos sin pi cx cy cz r 0 = some (new_matrix (0 * 0) 4) := by
    unfold generate_sphere
    rw [loop_le_one_zero]
    rfl
  unfold add_sphere
  rw [hs, loop_lt_zero_zero]
  rfl

theorem add_torus_step_zero {α : Type} [Field α] (cos sin : α → α) (pi cx cy cz r R : α)
    (edges : matrix α) : add_torus cos sin pi edges cx cy cz r R 0 = some edges := by
  have ht : generate_torus cos sin pi cx cy cz r R 0 = some (new_matrix (0 * 0) 4) := by
    unfold generate_torus
    rw [loop_le_one_zero]
    rfl
  unfold add_torus
  rw [ht, loop_lt_zero_zero]
  rfl

/-- A call whose step the model covers, on a buffer satisfying the invariant,
returns a buffer satisfying the invariant; `generate_curve_coefs` is assumed to
return a readable coefficient column. -/
theorem add_shape_returns {α : Type} [Field α] (cos sin : α → α) (pi : α)
    (gcc : α → α → α → α → Int → matrix α)
    (hg : ∀ (p0 p1 p2 p3 : α) (t : Int), ∃ a b c d, (gcc p0 p1 p2 p3 t).holds_coefs a b c d)
    (M : matrix α) (hM : M.ok) (sh : Shape α) (hv : sh.step_ok) :
    ∃ M', add_shape cos sin pi gcc M sh = some M' ∧ M'.ok := by
  have hex : ∃ M', add_shape cos sin pi gcc M sh = some M' := by
    cases sh with
    | edge x0 y0 z0 x1 y1 z1 =>
      obtain ⟨M', h, _⟩ := add_points_spec [(x0, y0, z0), (x1, y1, z1)] M hM
      exact ⟨M', by simp only [add_shape, add_edge_eq_add_points]; exact h⟩
    | box x y z w hh d =>
      obtain ⟨M', h, _⟩ := add_points_spec (box_edges.flatMap (fun e =>
        [box_corner x y z w hh d e.1, box_corner x y z w hh d e.2])) M hM
      exact ⟨M', by simp only [add_shape, add_box_eq_add_points]; exact h⟩
    | sphere cx cy cz r step =>
      rcases hv with h0 | h2
      · subst h0
        exact ⟨M, add_sphere_step_zero cos sin pi cx cy cz r M⟩
      · obtain ⟨⟨E', h, _⟩, _⟩ := add_spec_of_two_le cos sin pi cx cy cz r r step h2 M hM
        exact ⟨E', h⟩
    | torus cx cy cz r R step =>
      rcases hv with h0 | h2
      · subst h0
        exact ⟨M, add_torus_step_zero cos sin pi cx cy cz r R M⟩
      · obtain ⟨_, ⟨E', h, _⟩⟩ := add_spec_of_two_le cos sin pi cx cy cz r R step h2 M hM
        exact ⟨E', h⟩
    | circle cx cy cz r step =>
      obtain ⟨M', h, _⟩ := add_points_spec (edge_points (chain_edges (r + cx, cy, cz)
        ((loop_le 1 step).map (circle_point cos sin pi cx cy cz r step)))) M hM
      exact ⟨M', by simp only [add_shape, add_circle_eq_add_points]; exact h⟩
    | curve x0 y0 x1 y1 x2 y2 x3 y3 step type =>
      obtain ⟨xa, xb, xc, xd, hx⟩ := hg x0 x1 x2 x3 type
      obtain ⟨ya, yb, yc, yd, hy⟩ := hg y0 y1 y2 y3 type
      obtain ⟨M', h, _⟩ := add_points_spec (edge_points (chain_edges (x0, y0, 0)
        ((loop_le 1 step).map (curve_point xa xb xc xd ya yb yc yd step)))) M hM
      exact ⟨M', by
        simp only [add_shape]
        rw [add_curve_eq_add_points gcc M x0 y0 x1 y1 x2 y2 x3 y3 step type xa xb xc xd
          ya yb yc yd hx hy]
        exact h⟩
  obtain ⟨M', h⟩ := hex
  have hb := add_shape_built cos sin pi gcc M M' sh h
  obtain ⟨M'', h1, hok, _⟩ := add_points_spec (edge_points (shape_edges cos sin pi gcc sh)) M hM
  rw [hb] at h1
  have hM : M' = M'' := Option.some.inj h1
  exact ⟨M'', by rw [h, hM], hok⟩

/-- A mix of calls whose steps the model covers returns a buffer. -/
theorem add_shapes_returns {α : Type} [Field α] (cos sin : α → α) (pi : α)
    (gcc : α → α → α → α → Int → matrix α)
    (hg : ∀ (p0 p1 p2 p3 : α) (t : Int), ∃ a b c d, (gcc p0 p1 p2 p3 t).holds_coefs a b c d) :
    ∀ (shapes : List (Shape α)) (M : matrix α), M.ok → (∀ sh ∈ shapes, sh.step_ok) →
    ∃ M', add_shapes cos sin pi gcc M shapes = some M' ∧ M'.ok := by
  intro shapes
  induction shapes with
  | nil =>
    intro M hM _
    exact ⟨M, rfl, hM⟩
  | cons sh shapes ih =>
    intro M hM hv
    obtain ⟨M1, h1, hok1⟩ := add_shape_returns cos sin pi gcc hg M hM sh
      (hv sh (List.mem_cons_self _ _))
    obtain ⟨M', h2, hok⟩ := ih M1 hok1 (fun s hs => hv s (List.mem_cons_of_mem _ hs))
    refine ⟨M', ?_, hok⟩
    unfold add_shapes
    rw [List.foldlM_cons, h1]
    exact h2

/-- The pairing of columns into edges: `n ≥ 1` `add_edge` calls on an empty
buffer give logical length `2n`, the `i`-th edge in the columns `2i` and `2i+1`,
first endpoint at the even index, and `draw_lines` makes one `draw_line` call
per edge, in insertion order, on its `(x, y)` endpoints; and a mix of
`add_edge`, `add_box`, `add_sphere`, `add_torus`, `add_circle` and `add_curve`
calls whose sphere and torus steps are 0 or at least 2 returns the buffer of the
`add_edge` calls for the edges of those calls, so the same holds for it. -/
theorem mix_pairing {α : Type} [Field α] (cos sin : α → α) (pi : α)
    (gcc : α → α → α → α → Int → matrix α) (trunc : α → Int) (c : Int) (hc : 0 ≤ c)
    (hg : ∀ (p0 p1 p2 p3 : α) (t : Int), ∃ a b c d, (gcc p0 p1 p2 p3 t).holds_coefs a b c d) :
    (∀ es : List ((α × α × α) × (α × α × α)), es ≠ [] →
      ∃ M', add_edges (new_matrix 4 c) es = some M' ∧ M'.lastcol = 2 * (es.length : Int) ∧
        (∀ (i : Nat) (e : (α × α × α) × (α × α × α)), es[i]? = some e →
          M'.col (2 * (i : Int)) = some (homog e.1) ∧
          M'.col (2 * (i : Int) + 1) = some (homog e.2)) ∧
        draw_lines trunc M' = some { printed := [], plots := draw_edges trunc es }) ∧
    (∀ shapes : List (Shape α), (∀ sh ∈ shapes, sh.step_ok) →
      ∃ M', add_shapes cos sin pi gcc (new_matrix 4 c) shapes = some M' ∧
        add_edges (new_matrix 4 c) (shapes.flatMap (shape_edges cos sin pi gcc)) = some M' ∧
        M'.lastcol = 2 * ((shapes.flatMap (shape_edges cos sin pi gcc)).length : Int) ∧
        (∀ (i : Nat) (e : (α × α × α) × (α × α × α)),
          (shapes.flatMap (shape_edges cos sin pi gcc))[i]? = some e →
          M'.col (2 * (i : Int)) = some (homog e.1) ∧
          M'.col (2 * (i : Int) + 1) = some (homog e.2)) ∧
        (shapes.flatMap (shape_edges cos sin pi gcc) ≠ [] →
          draw_lines trunc M' = some
            { printed := [],
              plots := draw_edges trunc (shapes.flatMap (shape_edges cos sin pi gcc)) })) := by
  have hok : (new_matrix 4 c : matrix α).ok := ⟨le_refl _, le_refl _, hc⟩
  constructor
  · intro es hne
    obtain ⟨M', h1, h2, h3, h4⟩ := add_edges_fresh trunc c hc es
    exact ⟨M', h1, h2, h3, h4 hne⟩
  · intro shapes hv
    obtain ⟨M', h, _⟩ := add_shapes_returns cos sin pi gcc hg shapes _ hok hv
    have hb := add_shapes_built cos sin pi gcc shapes _ M' h
    obtain ⟨M'', h1, h2, h3, h4⟩ :=
      add_edges_fresh trunc c hc (shapes.flatMap (shape_edges cos sin pi gcc))
    rw [hb] at h1
    have hM : M' = M'' := Option.some.inj h1
    exact ⟨M'', by rw [← hM]; exact h, by rw [← hM]; exact hb, h2, h3, h4⟩

theorem bezier_returns_coefs (p0 p1 p2 p3 : ℚ) (t : Int) :
    ∃ a b c d, (bezier_curve_coefs p0 p1 p2 p3 t).holds_coefs a b c d :=
  ⟨_, _, _, _, bezier_holds_coefs p0 p1 p2 p3 t⟩

/-- A mix of a box, a sphere with `step = 2`, a circle with `step = 3` and a
curve with `step = 2` on an empty buffer of rationals: 12 + 4 + 3 + 2 edges,
logical length 42, and `draw_lines` draws the 21 of them in order. -/
theorem mix_pairing_example :
    ∃ M', add_shapes (fun x => x) (fun x => x) 3 bezier_curve_coefs (new_matrix 4 0 : matrix ℚ)
        [Shape.box 0 0 0 1 1 1, Shape.sphere 0 0 0 1 2, Shape.circle 0 0 0 1 3,
          Shape.curve 0 0 1 1 2 0 3 1 2 0] = some M' ∧
      M'.lastcol = 42 ∧
      draw_lines trunc_rat M' = some
        { printed := [],
          plots := draw_edges trunc_rat
            ([Shape.box 0 0 0 1 1 1, Shape.sphere 0 0 0 1 2, Shape.circle 0 0 0 1 3,
              Shape.curve 0 0 1 1 2 0 3 1 2 0].flatMap
              (shape_edges (fun x => x) (fun x => x) 3 bezier_curve_coefs)) } := by
  obtain ⟨M', a, _, b, _, d⟩ := (mix_pairing (fun x : ℚ => x) (fun x : ℚ => x) 3
    bezier_curve_coefs trunc_rat 0 (le_refl _) bezier_returns_coefs).2
    [Shape.box 0 0 0 1 1 1, Shape.sphere 0 0 0 1 2, Shape.circle 0 0 0 1 3,
      Shape.curve 0 0 1 1 2 0 3 1 2 0] (by simp [Shape.step_ok])
  have hlen : ([Shape.box (0 : ℚ) 0 0 1 1 1, Shape.sphere 0 0 0 1 2, Shape.circle 0 0 0 1 3,
      Shape.curve 0 0 1 1 2 0 3 1 2 0].flatMap
      (shape_edges (fun x => x) (fun x => x) 3 bezier_curve_coefs)).length = 21 := by
    rfl
  refine ⟨M', a, ?_, d ?_⟩
  · rw [b, hlen]
    rfl
  · intro hnil
    rw [hnil] at hlen
    simp at hlen

/-- C17 (failing input: a mix with `add_sphere` or `add_torus` at `step = 1`):
whatever calls come before and after it, a mix that contains `add_sphere` or
`add_torus` with `step = 1` builds no buffer: the generator writes outside the
one row of `new_matrix(step * step, 4)`, so there is no logical length, no
pair of columns and nothing for `draw_lines` to draw. -/
theorem mix_step_one_out_of_range {α : Type} [Field α] (cos sin : α → α) (pi : α)
    (gcc : α → α → α → α → Int → matrix α) (cx cy cz r R : α)
    (before after : List (Shape α)) (edges : matrix α) :
    add_shapes cos sin pi gcc edges (before ++ Shape.sphere cx cy cz r 1 :: after) = none ∧
    add_shapes cos sin pi gcc edges (before ++ Shape.torus cx cy cz r R 1 :: after) = none := by
  have hs : ∀ M : matrix α, add_shape cos sin pi gcc M (Shape.sphere cx cy cz r 1) = none := by
    intro M
    simp only [add_shape]
    unfold add_sphere
    rw [generate_sphere_step_one]
    rfl
  have ht : ∀ M : matrix α, add_shape cos sin pi gcc M (Shape.torus cx cy cz r R 1) = none := by
    intro M
    simp only [add_shape]
    unfold add_torus
    rw [generate_torus_step_one]
    rfl
  constructor
  · rw [add_shapes_append]
    cases add_shapes cos sin pi gcc edges before with
    | none => rfl
    | some M1 =>
      simp only [Option.some_bind]
      unfold add_shapes
      rw [List.foldlM_cons, hs]
      rfl
  · rw [add_shapes_append]
    cases add_shapes cos sin pi gcc edges before with
    | none => rfl
    | some M1 =>
      simp only [Option.some_bind]
      unfold add_shapes
      rw [List.foldlM_cons, ht]
      rfl

/-! ## The rows of the generated buffers -/

/-- C20 (failing input `step = 1`): the buffer `new_matrix(step * step, 4)` of
`generate_sphere` and `generate_torus` has 1 row, so of the four writes of the
first `add_point` the one to row 0 is in range and the one to row 1 is not:
the generators do not return. -/
theorem generate_step_one_rows {α : Type} [Field α] (cos sin : α → α)
    (pi cx cy cz r R x y : α) :
    (new_matrix (1 * 1) 4 : matrix α).rows = 1 ∧
    (∃ M1, (new_matrix (1 * 1) 4 : matrix α).write 0 0 x = some M1 ∧ M1.rows = 1 ∧
      M1.write 1 0 y = none) ∧
    generate_sphere cos sin pi cx cy cz r 1 = none ∧
    generate_torus cos sin pi cx cy cz r R 1 = none := by
  refine ⟨rfl, ?_, generate_sphere_step_one cos sin pi cx cy cz r,
    generate_torus_step_one cos sin pi cx cy cz r R⟩
  have hin : (0 : Int) ≤ 0 ∧ (0 : Int) < (new_matrix (1 * 1) 4 : matrix α).rows ∧
      (0 : Int) ≤ 0 ∧ (0 : Int) < (new_matrix (1 * 1) 4 : matrix α).cols := by
    simp [new_matrix]
  refine ⟨_, matrix.write_eq_some _ 0 0 x hin, rfl, ?_⟩
  apply matrix.write_eq_none
  simp [new_matrix]

end Draw
